import Mathlib

/-!
Verification of the `mark` lexer (`lexer.go`).

The embedding models the input as a list of runes (`List Char`); positions
count runes, so every rune has width 1.  On ASCII inputs (all inputs used by
the concrete theorems below) rune offsets coincide with Go's byte offsets.
Go's regexps here are all anchored (`^...`), and Go's `regexp` package uses
leftmost-first (Perl-style, backtracking) semantics; each pattern of the
grammar tables is therefore embedded as a direct matcher implementing that
backtracking order for the concrete pattern.
-/

namespace Mark

/-- The backtick character, written via its code point. -/
def bt : Char := Char.ofNat 96

/-- itemType from lexer.go (the constant block). -/
inductive ItemType where
  | itemError
  | itemNewLine
  | itemHTML
  | itemText
  | itemLineBreak
  | itemHeading
  | itemLHeading
  | itemBlockQuote
  | itemList
  | itemCodeBlock
  | itemGfmCodeBlock
  | itemHr
  | itemTable
  | itemLinks
  | itemStrong
  | itemItalic
  | itemStrike
  | itemCode
  | itemImages
  deriving DecidableEq, Repr

/-- `item` from lexer.go: token type, starting position, value. -/
structure Item where
  typ : ItemType
  pos : Nat
  val : List Char
  deriving DecidableEq, Repr

/-- Length of the longest run of characters satisfying `p` at the head of the
list (used for greedy `x*` pieces of the anchored patterns). -/
def countP (p : Char → Bool) : List Char → Nat
  | [] => 0
  | c :: cs => if p c then countP p cs + 1 else 0

/-- Go's regexp `\s` class: `[\t\n\f\r ]`. -/
def isWsRE (c : Char) : Bool :=
  c = ' ' || c = '\t' || c = '\n' || c = '\r' || c = Char.ofNat 12

/-- The character class `[-*_]` of the horizontal-rule pattern. -/
def isHrMark (c : Char) : Bool := c = '-' || c = '*' || c = '_'

/-- Greedy repetition of the group `( *[-*_])` of the `itemHr` pattern, as a
single structural pass: each repetition is a run of spaces followed by one
`[-*_]` character; spaces not followed by such a repetition belong to the
pattern tail instead.  Returns (number of repetitions, characters consumed).
The repetition needs no backtracking: if the tail fails after the maximal
repetition count, it fails after any smaller count as well. -/
def hrLoop : List Char → Nat × Nat
  | [] => (0, 0)
  | c :: rest =>
    if isHrMark c then ((hrLoop rest).1 + 1, (hrLoop rest).2 + 1)
    else if c = ' ' then
      match hrLoop rest with
      | (0, _) => (0, 0)
      | (r + 1, m) => (r + 1, m + 1)
    else (0, 0)

/-- `block[itemHr] = ^( *[-*_]){3,} *(?:\n+|$)`: returns the length of the
match, if any. -/
def hrFind (s : List Char) : Option Nat :=
  let r := hrLoop s
  if r.1 < 3 then none
  else
    let rest := s.drop r.2
    let sp := countP (fun c => c = ' ') rest
    let rest2 := rest.drop sp
    let nl := countP (fun c => c = '\n') rest2
    if 0 < nl then some (r.2 + sp + nl)
    else if rest2 = [] then some (r.2 + sp) else none

/-- The tail ` *#* *(?:\n+|$)` of the `itemHeading` pattern (deterministic:
backtracking on the greedy pieces cannot create a match the greedy pass
misses). -/
def headTail (s : List Char) : Option Nat :=
  let a := countP (fun c => c = ' ') s
  let s1 := s.drop a
  let b := countP (fun c => c = '#') s1
  let s2 := s1.drop b
  let c := countP (fun x => x = ' ') s2
  let s3 := s2.drop c
  let d := countP (fun x => x = '\n') s3
  if 0 < d then some (a + b + c + d)
  else if s3 = [] then some (a + b + c) else none

/-- The lazy capture `([^\n]+?)` followed by the heading tail: grows the
capture one character at a time (shortest first), trying the tail after each
extension.  Returns (consumed length including the tail, captured text). -/
def headCap : List Char → Option (Nat × List Char)
  | [] => none
  | c :: rest =>
    if c = '\n' then none
    else
      match headTail rest with
      | some t => some (t + 1, [c])
      | none =>
        match headCap rest with
        | some (n, cap) => some (n + 1, c :: cap)
        | none => none

/-- Backtracking over the greedy ` *` between the hashes and the capture:
tries `sp` spaces first, then fewer. -/
def headSpLoop (s : List Char) : Nat → Option (Nat × List Char)
  | 0 => headCap s
  | sp + 1 =>
    match headCap (s.drop (sp + 1)) with
    | some (n, cap) => some (sp + 1 + n, cap)
    | none => headSpLoop s sp

/-- Backtracking over the greedy `#{1,6}`: tries `k` hashes first, then
fewer (at least 1). -/
def headKLoop (s1 : List Char) : Nat → Option (Nat × List Char)
  | 0 => none
  | k + 1 =>
    let rest := s1.drop (k + 1)
    match headSpLoop rest (countP (fun c => c = ' ') rest) with
    | some (n, cap) => some (k + 1 + n, cap)
    | none => headKLoop s1 k

/-- `block[itemHeading] = ^ *(#{1,6}) *([^\n]+?) *#* *(?:\n+|$)`: returns the
length of the match and the text captured by group 2, if any.  The leading
` *` is deterministic since a `#` must follow it. -/
def headingFind (s : List Char) : Option (Nat × List Char) :=
  let n1 := countP (fun c => c = ' ') s
  let s1 := s.drop n1
  let h := countP (fun c => c = '#') s1
  if h = 0 then none
  else
    match headKLoop s1 (min h 6) with
    | some (n, cap) => some (n1 + n, cap)
    | none => none

/-- One repetition of the group `( {4}[^\n]+\n*)` of `block[itemCodeBlock]`. -/
def codeRep (s : List Char) : Option Nat :=
  if s.take 4 = [' ', ' ', ' ', ' '] then
    let t := countP (fun c => c != '\n') (s.drop 4)
    if t = 0 then none
    else
      let u := countP (fun c => c = '\n') (s.drop (4 + t))
      some (4 + t + u)
  else none

theorem countP_le_length (p : Char → Bool) (s : List Char) :
    countP p s ≤ s.length := by
  induction s with
  | nil => simp [countP]
  | cons c cs ih =>
    simp only [countP, List.length_cons]
    split
    · omega
    · omega

theorem codeRep_pos {s : List Char} {m : Nat} (h : codeRep s = some m) :
    4 < m := by
  unfold codeRep at h
  split at h
  · by_cases ht : countP (fun c => c != '\n') (s.drop 4) = 0
    · simp [ht] at h
    · simp [ht] at h
      omega
  · exact absurd h (by simp)

theorem codeRep_le {s : List Char} {m : Nat} (h : codeRep s = some m) :
    m ≤ s.length := by
  unfold codeRep at h
  split at h
  · by_cases ht : countP (fun c => c != '\n') (s.drop 4) = 0
    · simp [ht] at h
    · simp only [ht, if_false] at h
      rename_i htake
      have h4 : 4 ≤ s.length := by
        have hl := congrArg List.length htake
        simp [List.length_take] at hl
        omega
      have ht1 : countP (fun c => c != '\n') (s.drop 4) ≤ s.length - 4 := by
        have := countP_le_length (fun c => c != '\n') (s.drop 4)
        simpa [List.length_drop] using this
      have ht2 : countP (fun c => c = '\n')
          (s.drop (4 + countP (fun c => c != '\n') (s.drop 4))) ≤
          s.length - (4 + countP (fun c => c != '\n') (s.drop 4)) := by
        have := countP_le_length (fun c => c = '\n')
          (s.drop (4 + countP (fun c => c != '\n') (s.drop 4)))
        simpa [List.length_drop] using this
      have := h
      simp only [Option.some.injEq] at this
      omega
  · exact absurd h (by simp)

/-- Greedy repetition (zero or more further repetitions) of the indented
code-block group, with an explicit recursion bound (each repetition consumes
at least 5 characters, so `s.length` bounds the number of repetitions). -/
def codeLoopF : Nat → List Char → Nat
  | 0, _ => 0
  | fuel + 1, s =>
    match codeRep s with
    | some m => m + codeLoopF fuel (s.drop m)
    | none => 0

/-- Greedy repetition of the indented code-block group. -/
def codeLoop (s : List Char) : Nat := codeLoopF s.length s

theorem codeLoopF_congr :
    ∀ (f g : Nat) (s : List Char), s.length ≤ f → s.length ≤ g →
      codeLoopF f s = codeLoopF g s := by
  intro f
  induction f with
  | zero =>
    intro g s hf hg
    have : s = [] := List.length_eq_zero.mp (by omega)
    subst this
    cases g <;> rfl
  | succ f ih =>
    intro g s hf hg
    cases s with
    | nil => cases g <;> rfl
    | cons c cs =>
      simp only [List.length_cons] at hf hg
      obtain ⟨g', rfl⟩ : ∃ g', g = g' + 1 := ⟨g - 1, by omega⟩
      simp only [codeLoopF]
      cases hrep : codeRep (c :: cs) with
      | none => rfl
      | some m =>
        have hp := codeRep_pos hrep
        have hl := codeRep_le hrep
        simp only [List.length_cons] at hl
        have h1 : ((c :: cs).drop m).length ≤ f := by
          simp only [List.length_drop, List.length_cons]
          omega
        have h2 : ((c :: cs).drop m).length ≤ g' := by
          simp only [List.length_drop, List.length_cons]
          omega
        simp only [ih g' _ h1 h2]

theorem codeLoopF_stable {f : Nat} {s : List Char} (hf : s.length ≤ f) :
    codeLoopF f s = codeLoop s :=
  codeLoopF_congr f s.length s hf le_rfl

/-- `block[itemCodeBlock] = ^( {4}[^\n]+\n*)+`: at least one repetition. -/
def codeFind (s : List Char) : Option Nat :=
  match codeRep s with
  | some m => some (m + codeLoop (s.drop m))
  | none => none

/-- Core of `^d{k}([\s\S]+?)d{k}`: the lazy content takes at least one
character, then the closing run of exactly `k` copies of `d` is tried; on
failure the content grows by one character. -/
def emphCore (d : Char) (k : Nat) : List Char → Option Nat
  | [] => none
  | _ :: rest =>
    if rest.take k = List.replicate k d then some (1 + k)
    else
      match emphCore d k rest with
      | some n => some (n + 1)
      | none => none

/-- `^d{k}([\s\S]+?)d{k}` for a single delimiter `d` repeated exactly `k`
times on each side (the shape of each branch of `reEmphasise` and of the
`itemStrike` pattern). -/
def emphFind (d : Char) (k : Nat) (s : List Char) : Option Nat :=
  if s.take k = List.replicate k d then
    match emphCore d k (s.drop k) with
    | some n => some (k + n)
    | none => none
  else none

/-- `span[itemStrong] = ^_{2}([\s\S]+?)_{2}|^\*{2}([\s\S]+?)\*{2}`
(leftmost-first alternation: underscore branch first). -/
def strongFind (s : List Char) : Option Nat :=
  emphFind '_' 2 s <|> emphFind '*' 2 s

/-- `span[itemItalic] = ^_{1}([\s\S]+?)_{1}|^\*{1}([\s\S]+?)\*{1}`. -/
def italicFind (s : List Char) : Option Nat :=
  emphFind '_' 1 s <|> emphFind '*' 1 s

/-- `span[itemStrike] = ^~{2}([\s\S]+?)~{2}`. -/
def strikeFind (s : List Char) : Option Nat :=
  emphFind '~' 2 s

/-- The tail `\s*`{1,2}` of the `itemCode` pattern: greedy whitespace, then
a greedy 1-or-2 backtick close (deterministic; backtracking cannot help). -/
def codeSpanTail (s : List Char) : Option Nat :=
  let w := countP isWsRE s
  let b := countP (fun c => c = bt) (s.drop w)
  if b = 0 then none else some (w + min b 2)

/-- The group `([\s\S]*?[^`])` followed by the code tail: the lazy part grows
from the empty string; the group's final character must be a non-backtick. -/
def codeInner : List Char → Option Nat
  | [] => none
  | c :: rest =>
    if c = bt then
      match codeInner rest with
      | some n => some (n + 1)
      | none => none
    else
      match codeSpanTail rest with
      | some t => some (1 + t)
      | none =>
        match codeInner rest with
        | some n => some (n + 1)
        | none => none

/-- Backtracking over the greedy `\s*` after the opening backticks. -/
def codeSpanSp (s : List Char) : Nat → Option Nat
  | 0 => codeInner s
  | sp + 1 =>
    match codeInner (s.drop (sp + 1)) with
    | some n => some (sp + 1 + n)
    | none => codeSpanSp s sp

/-- `span[itemCode] = ^`{1,2}\s*([\s\S]*?[^`])\s*`{1,2}`: greedy 1-or-2
opening backticks (2 tried first when available). -/
def codeSpanFind (s : List Char) : Option Nat :=
  let afterOpen := fun (t : List Char) =>
    (codeSpanSp t (countP isWsRE t)).map id
  let b := countP (fun c => c = bt) s
  if b = 0 then none
  else if b = 1 then (afterOpen (s.drop 1)).map (· + 1)
  else ((afterOpen (s.drop 2)).map (· + 2)) <|> ((afterOpen (s.drop 1)).map (· + 1))

/-- The tail `\s*F{3,}$*(?:\n+|$)` of the GFM code pattern, for fence
character `F` (deterministic; `$*` always matches the empty string). -/
def gfmTail (F : Char) (s : List Char) : Option Nat :=
  let w := countP isWsRE s
  let g := countP (fun c => c = F) (s.drop w)
  if g < 3 then none
  else
    let s2 := s.drop (w + g)
    let nl := countP (fun c => c = '\n') s2
    if 0 < nl then some (w + g + nl)
    else if s2 = [] then some (w + g) else none

/-- The lazy content `([\s\S]+?)` followed by the GFM tail: at least one
character, shortest content first. -/
def gfmContent (F : Char) : List Char → Option Nat
  | [] => none
  | _ :: rest =>
    match gfmTail F rest with
    | some t => some (1 + t)
    | none =>
      match gfmContent F rest with
      | some n => some (n + 1)
      | none => none

/-- After the opening fence: ` *(\S+)? *\n` then content and closing fence
(each greedy piece here is deterministic).  Returns the consumed length and
the optional language-tag capture `(\S+)?`. -/
def gfmHead (F : Char) (s : List Char) : Option (Nat × Option (List Char)) :=
  let sp1 := countP (fun c => c = ' ') s
  let wlen := countP (fun c => !(isWsRE c)) (s.drop sp1)
  let tag := (s.drop sp1).take wlen
  let sp2 := countP (fun c => c = ' ') (s.drop (sp1 + wlen))
  match (s.drop (sp1 + wlen + sp2)).head? with
  | some c =>
    if c = '\n' then
      match gfmContent F (s.drop (sp1 + wlen + sp2 + 1)) with
      | some n =>
        some (sp1 + wlen + sp2 + 1 + n, if wlen = 0 then none else some tag)
      | none => none
    else none
  | none => none

/-- Backtracking over the greedy opening fence `F{3,}`: tries the longest
run first, down to 3. -/
def gfmOpenLoop (F : Char) (s : List Char) : Nat → Option (Nat × Option (List Char))
  | 0 => none
  | l + 1 =>
    if l + 1 < 3 then none
    else
      match gfmHead F (s.drop (l + 1)) with
      | some (n, tag) => some (l + 1 + n, tag)
      | none => gfmOpenLoop F s l

/-- One branch `^F{3,} *(\S+)? *\n([\s\S]+?)\s*F{3,}$*(?:\n+|$)` of the
`itemGfmCodeBlock` pattern. -/
def gfmFind (F : Char) (s : List Char) : Option (Nat × Option (List Char)) :=
  gfmOpenLoop F s (countP (fun c => c = F) s)

/-- `block[itemGfmCodeBlock]`: the backtick branch, then the tilde branch
(leftmost-first alternation). -/
def gfmCodeFind (s : List Char) : Option (Nat × Option (List Char)) :=
  gfmFind bt s <|> gfmFind '~' s

/-- `lexer` state (lexer.go): input, cursor, item start, last rune width and
the items sent on the channel so far (the channel is modelled as the ordered
list of emitted items).  `name`, `lastPos` and `parenDepth` play no role in
scanning and are omitted. -/
structure LS where
  input : List Char
  pos : Nat
  start : Nat
  width : Nat
  items : List Item
  deriving DecidableEq, Repr

/-- The `stateFn` values of lexer.go, as a finite enumeration. -/
inductive SF where
  | any
  | heading
  | hr
  | gfmCode
  | code
  | list
  | text
  deriving DecidableEq, Repr

/-- Result of one state-function invocation: an out-of-range slice (Go
panic), the nil state (run closes the channel), or the next state. -/
inductive Step where
  | crash (l : LS)
  | halt (l : LS)
  | cont (l : LS) (s : SF)
  deriving DecidableEq, Repr

/-- `emit`: sends `input[start:pos]` with the item's start position, then
moves `start` to `pos`. -/
def emitTok (l : LS) (t : ItemType) : LS :=
  { l with start := l.pos,
           items := l.items ++ [⟨t, l.start, (l.input.drop l.start).take (l.pos - l.start)⟩] }

/-- The four span rules of `lexText`, tried in source order: Strong, Italic,
Strike, InlineCode (`FindString` returns the empty string exactly when the
anchored pattern has no match, so the `m != ""` tests coincide with match
success). -/
def firstSpan (s : List Char) : Option (ItemType × Nat) :=
  match strongFind s with
  | some m => some (.itemStrong, m)
  | none =>
    match italicFind s with
    | some m => some (.itemItalic, m)
    | none =>
      match strikeFind s with
      | some m => some (.itemStrike, m)
      | none =>
        match codeSpanFind s with
        | some m => some (.itemCode, m)
        | none => none

/-- Is the rune a `lexText` span delimiter? -/
def isDelim (c : Char) : Bool := c = '_' || c = '*' || c = '~' || c = bt

/-- One invocation of the current state function.  `lexText`'s internal loop
is modelled one iteration per step (state stays `text`).  `next`/`backup`/
`peek` are inlined with their exact effect on `pos` and `width`; in
particular `peek` overwrites `width` (0 at end of input), which `backup`
then subtracts, exactly as in the Go source. -/
def lexStep (l : LS) : SF → Step
  | .any =>
    match l.input[l.pos]? with
    | none => .halt { l with width := 0 }
    | some r =>
      let l1 : LS := { l with pos := l.pos + 1, width := 1 }
      if r = '*' || r = '-' then
        let pk := l1.input[l1.pos]?
        let w := if pk.isSome then 1 else 0
        let l2 : LS := { l1 with width := w }
        if pk = some '*' || pk = some '-' then
          .cont { l2 with pos := l2.pos - w } .hr
        else
          .cont { l2 with pos := l2.pos - w } .list
      else if r = '#' then
        .cont { l1 with pos := l.pos } .heading
      else if r = ' ' && (codeFind (l.input.drop l.pos)).isSome then
        .cont { l1 with pos := l.pos } .code
      else if r = ' ' || r = bt || r = '~' then
        if l1.input.length < l1.pos + 2 then .crash l1
        else
          let c2 := (l1.input.drop l1.pos).take 2
          if c2 = [bt, bt] || c2 = ['~', '~'] then
            .cont { l1 with pos := l.pos } .gfmCode
          else
            .cont { l1 with pos := l.pos } .text
      else
        .cont { l1 with pos := l.pos } .text
  | .heading =>
    match headingFind (l.input.drop l.pos) with
    | some (m, _) => .cont (emitTok { l with pos := l.pos + m } .itemHeading) .any
    | none => .cont l .text
  | .hr =>
    match hrFind (l.input.drop l.pos) with
    | some m => .cont (emitTok { l with pos := l.pos + m } .itemHr) .any
    | none => .cont l .text
  | .gfmCode =>
    match gfmCodeFind (l.input.drop l.pos) with
    | some (m, _) => .cont (emitTok { l with pos := l.pos + m } .itemGfmCodeBlock) .any
    | none => .cont l .text
  | .code =>
    let m := (codeFind (l.input.drop l.pos)).getD 0
    .cont (emitTok { l with pos := l.pos + m } .itemCodeBlock) .any
  | .list => .cont l .text
  | .text =>
    match l.input[l.pos]? with
    | none => .cont { l with width := 0 } .any
    | some r =>
      let l1 : LS := { l with pos := l.pos + 1, width := 1 }
      if r = '\n' || r = ' ' then
        let pk := l1.input[l1.pos]?
        let w := if pk.isSome then 1 else 0
        let l2 : LS := { l1 with width := w }
        if (r = '\n' && pk = some '\n') || (r = ' ' && pk = some ' ') then
          .cont (emitTok { l2 with pos := l2.pos + 1 } .itemNewLine) .any
        else
          .cont (emitTok l2 .itemText) .text
      else if isDelim r then
        match firstSpan (l.input.drop l.pos) with
        | some (t, m) => .cont (emitTok { l1 with pos := l.pos + m } t) .text
        | none => .cont (emitTok l1 .itemText) .text
      else
        .cont (emitTok l1 .itemText) .text

/-- Outcome of a whole run: either the channel was closed normally (`run`
reached the nil state) or the goroutine panicked on the out-of-range slice;
both carry the items emitted up to that point. -/
inductive LexResult where
  | ok (items : List Item)
  | crashed (items : List Item)
  deriving DecidableEq, Repr

/-- Items carried by a result. -/
def LexResult.toItems : LexResult → List Item
  | .ok its => its
  | .crashed its => its

/-- Fuel-indexed interpreter for `run`: `none` means the fuel ran out. -/
def runF : Nat → LS → SF → Option LexResult
  | 0, _, _ => none
  | n + 1, l, s =>
    match lexStep l s with
    | .crash l' => some (.crashed l'.items)
    | .halt l' => some (.ok l'.items)
    | .cont l' s' => runF n l' s'

/-- The state built by `lex`. -/
def initLS (s : List Char) : LS := ⟨s, 0, 0, 0, []⟩

/-- Fuel sufficient for any input (proved below: `runF_lexFuel_ne_none`). -/
def lexFuel (s : List Char) : Nat := 6 * s.length + 6

/-- The complete run of the lexer on an input. -/
def lexTokens (s : List Char) : LexResult :=
  (runF (lexFuel s) (initLS s) .any).getD (.crashed [])

/-- Comparison definition (spec side): an ordinary character, i.e. one that
is not special to `lexAny` routing (`*`, `-`, `#`, space, backtick, tilde)
and neither a text-run boundary character (newline, space) nor a span
delimiter (`_`, `*`, `~`, backtick). -/
def plainChar (c : Char) : Bool :=
  !(c = ' ' || c = '\n' || c = '_' || c = '*' || c = '~' || c = bt ||
    c = '#' || c = '-')

/-- Comparison definition (spec side): the token list predicted for a plain
word starting at position `p`: one one-character text token per rune. -/
def textTokens (p : Nat) : List Char → List Item
  | [] => []
  | c :: rest => ⟨.itemText, p, [c]⟩ :: textTokens (p + 1) rest

/-! ### Basic lemmas about `countP` and `runF` -/

theorem countP_nil (p : Char → Bool) : countP p [] = 0 := rfl

theorem countP_cons_pos (p : Char → Bool) {c : Char} (cs : List Char)
    (h : p c = true) : countP p (c :: cs) = countP p cs + 1 := by
  simp [countP, h]

theorem countP_cons_neg (p : Char → Bool) {c : Char} (cs : List Char)
    (h : p c = false) : countP p (c :: cs) = 0 := by
  simp [countP, h]

theorem countP_replicate_append (p : Char → Bool) {c : Char} (n : Nat)
    (rest : List Char) (h : p c = true) :
    countP p (List.replicate n c ++ rest) = n + countP p rest := by
  induction n with
  | zero => simp
  | succ n ih =>
    simp only [List.replicate_succ, List.cons_append, countP_cons_pos p _ h, ih]
    omega

theorem countP_replicate (p : Char → Bool) {c : Char} (n : Nat) (h : p c = true) :
    countP p (List.replicate n c) = n := by
  have := countP_replicate_append p n [] h
  simpa using this

theorem countP_run_stop (p : Char → Bool) {c d : Char} (n : Nat)
    (rest : List Char) (hc : p c = true) (hd : p d = false) :
    countP p (List.replicate n c ++ d :: rest) = n := by
  rw [countP_replicate_append p n _ hc, countP_cons_neg p _ hd]
  omega

theorem drop_replicate_append {c : Char} (n : Nat) (rest : List Char) :
    (List.replicate n c ++ rest).drop n = rest := by
  have := List.drop_left (List.replicate n c) rest
  simpa using this

theorem take_replicate_append {c : Char} (n : Nat) (rest : List Char) :
    (List.replicate n c ++ rest).take n = List.replicate n c := by
  have := List.take_left (List.replicate n c) rest
  simpa using this

theorem runF_mono {n m : Nat} (h : n ≤ m) {l : LS} {s : SF} {r : LexResult}
    (hr : runF n l s = some r) : runF m l s = some r := by
  induction n generalizing m l s with
  | zero => simp [runF] at hr
  | succ n ih =>
    obtain ⟨m', rfl⟩ : ∃ m', m = m' + 1 := ⟨m - 1, by omega⟩
    simp only [runF] at hr ⊢
    cases hstep : lexStep l s with
    | crash l' => rw [hstep] at hr; exact hr
    | halt l' => rw [hstep] at hr; exact hr
    | cont l' s' =>
      rw [hstep] at hr
      exact ih (by omega) hr

/-! ### Every successful match is nonempty and within bounds -/

theorem hrLoop_bounds (s : List Char) :
    (hrLoop s).1 ≤ (hrLoop s).2 ∧ (hrLoop s).2 ≤ s.length := by
  induction s with
  | nil => simp [hrLoop]
  | cons c rest ih =>
    simp only [hrLoop]
    split
    · simp only [List.length_cons]
      omega
    · split
      · split
        · simp
        · rename_i r m hmatch
          have h1 : (hrLoop rest).1 = r + 1 := by rw [hmatch]
          have h2 : (hrLoop rest).2 = m := by rw [hmatch]
          simp only [List.length_cons]
          omega
      · simp

theorem hrLoop_le (s : List Char) : (hrLoop s).2 ≤ s.length :=
  (hrLoop_bounds s).2

theorem hrLoop_reps_le (s : List Char) : (hrLoop s).1 ≤ (hrLoop s).2 :=
  (hrLoop_bounds s).1

theorem hrFind_le {s : List Char} {m : Nat} (h : hrFind s = some m) :
    m ≤ s.length := by
  unfold hrFind at h
  set r := hrLoop s with hr
  by_cases h3 : r.1 < 3
  · simp [h3] at h
  · simp only [h3, if_false] at h
    have hc : r.2 ≤ s.length := hrLoop_le s
    set rest := s.drop r.2 with hrest
    set sp := countP (fun c => c = ' ') rest with hsp
    have hsp_le : sp ≤ rest.length := countP_le_length _ _
    have hrl : rest.length = s.length - r.2 := by simp [hrest, List.length_drop]
    set rest2 := rest.drop sp with hrest2
    have hr2 : rest2.length = rest.length - sp := by simp [hrest2, List.length_drop]
    set nl := countP (fun c => c = '\n') rest2 with hnl
    have hnl_le : nl ≤ rest2.length := countP_le_length _ _
    by_cases hn : 0 < nl
    · simp only [hn, if_true, Option.some.injEq] at h
      omega
    · simp only [hn, if_false] at h
      by_cases he : rest2 = []
      · simp only [he, if_true, Option.some.injEq] at h
        omega
      · simp [he] at h

theorem countP_drop_le (p : Char → Bool) (s : List Char) (k : Nat) :
    countP p (s.drop k) ≤ s.length - k := by
  have := countP_le_length p (s.drop k)
  simpa [List.length_drop] using this

theorem head?_drop_lt {s : List Char} {k : Nat} {c : Char}
    (h : (s.drop k).head? = some c) : k < s.length := by
  by_contra hk
  rw [List.drop_eq_nil_of_le (by omega)] at h
  cases h

theorem take_eq_replicate_length {s : List Char} {k : Nat} {d : Char}
    (h : s.take k = List.replicate k d) : k ≤ s.length := by
  have := congrArg List.length h
  simp [List.length_take] at this
  omega

theorem hrFind_pos {s : List Char} {m : Nat} (h : hrFind s = some m) :
    3 ≤ m := by
  unfold hrFind at h
  by_cases h3 : (hrLoop s).1 < 3
  · simp [h3] at h
  · simp only [h3, if_false] at h
    have hrc := hrLoop_reps_le s
    by_cases hn : 0 < countP (fun c => c = '\n')
        ((s.drop (hrLoop s).2).drop (countP (fun c => c = ' ') (s.drop (hrLoop s).2)))
    · simp only [hn, if_true, Option.some.injEq] at h
      omega
    · simp only [hn, if_false] at h
      split at h
      · simp only [Option.some.injEq] at h
        omega
      · exact absurd h (by simp)

theorem headTail_le {s : List Char} {n : Nat} (h : headTail s = some n) :
    n ≤ s.length := by
  simp only [headTail] at h
  have ha := countP_le_length (fun c => c = ' ') s
  have hb := countP_le_length (fun c => c = '#') (s.drop (countP (fun c => c = ' ') s))
  have hc := countP_le_length (fun x => x = ' ')
    ((s.drop (countP (fun c => c = ' ') s)).drop
      (countP (fun c => c = '#') (s.drop (countP (fun c => c = ' ') s))))
  have hd := countP_le_length (fun x => x = '\n')
    (((s.drop (countP (fun c => c = ' ') s)).drop
      (countP (fun c => c = '#') (s.drop (countP (fun c => c = ' ') s)))).drop
      (countP (fun x => x = ' ')
        ((s.drop (countP (fun c => c = ' ') s)).drop
          (countP (fun c => c = '#') (s.drop (countP (fun c => c = ' ') s))))))
  simp only [List.length_drop] at hb hc hd
  split at h
  · simp only [Option.some.injEq] at h
    omega
  · split at h
    · simp only [Option.some.injEq] at h
      omega
    · cases h

theorem headCap_le {s : List Char} {n : Nat} {cap : List Char}
    (h : headCap s = some (n, cap)) : n ≤ s.length := by
  induction s generalizing n cap with
  | nil => simp [headCap] at h
  | cons c rest ih =>
    simp only [headCap] at h
    split at h
    · cases h
    · split at h
      · rename_i t ht
        simp only [Option.some.injEq, Prod.mk.injEq] at h
        have := headTail_le ht
        simp only [List.length_cons]
        omega
      · split at h
        · rename_i n' cap' hp
          simp only [Option.some.injEq, Prod.mk.injEq] at h
          have := ih hp
          simp only [List.length_cons]
          omega
        · cases h

theorem headCap_pos {s : List Char} {n : Nat} {cap : List Char}
    (h : headCap s = some (n, cap)) : 1 ≤ n := by
  cases s with
  | nil => simp [headCap] at h
  | cons c rest =>
    simp only [headCap] at h
    split at h
    · cases h
    · split at h
      · simp only [Option.some.injEq, Prod.mk.injEq] at h
        omega
      · split at h
        · simp only [Option.some.injEq, Prod.mk.injEq] at h
          omega
        · cases h

theorem headSpLoop_le {s : List Char} {n : Nat} {cap : List Char} :
    ∀ {sp : Nat}, sp ≤ s.length → headSpLoop s sp = some (n, cap) →
      n ≤ s.length := by
  intro sp
  induction sp with
  | zero =>
    intro _ h
    exact headCap_le h
  | succ sp ih =>
    intro hsp h
    simp only [headSpLoop] at h
    split at h
    · rename_i n' cap' h'
      simp only [Option.some.injEq, Prod.mk.injEq] at h
      have := headCap_le h'
      simp only [List.length_drop] at this
      omega
    · exact ih (by omega) h

theorem headSpLoop_pos {s : List Char} {n : Nat} {cap : List Char} :
    ∀ {sp : Nat}, headSpLoop s sp = some (n, cap) → 1 ≤ n := by
  intro sp
  induction sp with
  | zero =>
    intro h
    exact headCap_pos h
  | succ sp ih =>
    intro h
    simp only [headSpLoop] at h
    split at h
    · simp only [Option.some.injEq, Prod.mk.injEq] at h
      omega
    · exact ih h

theorem headKLoop_le {s1 : List Char} {n : Nat} {cap : List Char} :
    ∀ {k : Nat}, headKLoop s1 k = some (n, cap) → n ≤ s1.length := by
  intro k
  induction k with
  | zero => intro h; simp [headKLoop] at h
  | succ k ih =>
    intro h
    simp only [headKLoop] at h
    split at h
    · rename_i n' cap' h'
      by_cases hk : k + 1 ≤ s1.length
      · simp only [Option.some.injEq, Prod.mk.injEq] at h
        have hle := headSpLoop_le (countP_le_length _ _) h'
        simp only [List.length_drop] at hle
        omega
      · rw [List.drop_eq_nil_of_le (by omega)] at h'
        simp [countP_nil, headSpLoop, headCap] at h'
    · exact ih h

theorem headKLoop_pos {s1 : List Char} {n : Nat} {cap : List Char} :
    ∀ {k : Nat}, headKLoop s1 k = some (n, cap) → 1 ≤ n := by
  intro k
  induction k with
  | zero => intro h; simp [headKLoop] at h
  | succ k ih =>
    intro h
    simp only [headKLoop] at h
    split at h
    · simp only [Option.some.injEq, Prod.mk.injEq] at h
      omega
    · exact ih h

theorem headingFind_le {s : List Char} {n : Nat} {cap : List Char}
    (h : headingFind s = some (n, cap)) : n ≤ s.length := by
  simp only [headingFind] at h
  split at h
  · cases h
  · split at h
    · rename_i n' cap' h'
      simp only [Option.some.injEq, Prod.mk.injEq] at h
      have := headKLoop_le h'
      simp only [List.length_drop] at this
      have := countP_le_length (fun c => c = ' ') s
      omega
    · cases h

theorem headingFind_pos {s : List Char} {n : Nat} {cap : List Char}
    (h : headingFind s = some (n, cap)) : 1 ≤ n := by
  simp only [headingFind] at h
  split at h
  · cases h
  · split at h
    · rename_i n' cap' h'
      simp only [Option.some.injEq, Prod.mk.injEq] at h
      have := headKLoop_pos h'
      omega
    · cases h

theorem emphCore_le {d : Char} {k : Nat} {s : List Char} {n : Nat}
    (h : emphCore d k s = some n) : n ≤ s.length := by
  induction s generalizing n with
  | nil => simp [emphCore] at h
  | cons c rest ih =>
    simp only [emphCore] at h
    split at h
    · rename_i hk
      simp only [Option.some.injEq] at h
      have := take_eq_replicate_length hk
      simp only [List.length_cons]
      omega
    · split at h
      · rename_i n' hn'
        simp only [Option.some.injEq] at h
        have := ih hn'
        simp only [List.length_cons]
        omega
      · cases h

theorem emphCore_pos {d : Char} {k : Nat} {s : List Char} {n : Nat}
    (h : emphCore d k s = some n) : 1 ≤ n := by
  cases s with
  | nil => simp [emphCore] at h
  | cons c rest =>
    simp only [emphCore] at h
    split at h
    · simp only [Option.some.injEq] at h
      omega
    · split at h
      · simp only [Option.some.injEq] at h
        omega
      · cases h

theorem emphFind_le {d : Char} {k : Nat} {s : List Char} {n : Nat}
    (h : emphFind d k s = some n) : n ≤ s.length := by
  simp only [emphFind] at h
  split at h
  · rename_i hk
    split at h
    · rename_i n' hn'
      simp only [Option.some.injEq] at h
      have h1 := take_eq_replicate_length hk
      have h2 := emphCore_le hn'
      simp only [List.length_drop] at h2
      omega
    · cases h
  · cases h

theorem emphFind_pos {d : Char} {k : Nat} {s : List Char} {n : Nat}
    (h : emphFind d k s = some n) : 1 ≤ n := by
  simp only [emphFind] at h
  split at h
  · split at h
    · rename_i n' hn'
      simp only [Option.some.injEq] at h
      have := emphCore_pos hn'
      omega
    · cases h
  · cases h

theorem orElse_eq_some_cases {α : Type} {a b : Option α} {v : α}
    (h : (a <|> b) = some v) : a = some v ∨ (a = none ∧ b = some v) := by
  cases a <;> simp_all

theorem strongFind_le {s : List Char} {n : Nat} (h : strongFind s = some n) :
    n ≤ s.length := by
  unfold strongFind at h
  rcases orElse_eq_some_cases h with h1 | ⟨_, h1⟩
  · exact emphFind_le h1
  · exact emphFind_le h1

theorem strongFind_pos {s : List Char} {n : Nat} (h : strongFind s = some n) :
    1 ≤ n := by
  unfold strongFind at h
  rcases orElse_eq_some_cases h with h1 | ⟨_, h1⟩
  · exact emphFind_pos h1
  · exact emphFind_pos h1

theorem italicFind_le {s : List Char} {n : Nat} (h : italicFind s = some n) :
    n ≤ s.length := by
  unfold italicFind at h
  rcases orElse_eq_some_cases h with h1 | ⟨_, h1⟩
  · exact emphFind_le h1
  · exact emphFind_le h1

theorem italicFind_pos {s : List Char} {n : Nat} (h : italicFind s = some n) :
    1 ≤ n := by
  unfold italicFind at h
  rcases orElse_eq_some_cases h with h1 | ⟨_, h1⟩
  · exact emphFind_pos h1
  · exact emphFind_pos h1

theorem strikeFind_le {s : List Char} {n : Nat} (h : strikeFind s = some n) :
    n ≤ s.length := emphFind_le h

theorem strikeFind_pos {s : List Char} {n : Nat} (h : strikeFind s = some n) :
    1 ≤ n := emphFind_pos h

theorem codeSpanTail_le {s : List Char} {n : Nat} (h : codeSpanTail s = some n) :
    n ≤ s.length := by
  simp only [codeSpanTail] at h
  split at h
  · cases h
  · simp only [Option.some.injEq] at h
    have h1 := countP_le_length isWsRE s
    have h2 := countP_le_length (fun c => c = bt) (s.drop (countP isWsRE s))
    simp only [List.length_drop] at h2
    omega

theorem codeInner_le {s : List Char} {n : Nat} (h : codeInner s = some n) :
    n ≤ s.length := by
  induction s generalizing n with
  | nil => simp [codeInner] at h
  | cons c rest ih =>
    simp only [codeInner] at h
    split at h
    · split at h
      · rename_i n' hn'
        simp only [Option.some.injEq] at h
        have := ih hn'
        simp only [List.length_cons]
        omega
      · cases h
    · split at h
      · rename_i t ht
        simp only [Option.some.injEq] at h
        have := codeSpanTail_le ht
        simp only [List.length_cons]
        omega
      · split at h
        · rename_i n' hn'
          simp only [Option.some.injEq] at h
          have := ih hn'
          simp only [List.length_cons]
          omega
        · cases h

theorem codeInner_pos {s : List Char} {n : Nat} (h : codeInner s = some n) :
    1 ≤ n := by
  induction s generalizing n with
  | nil => simp [codeInner] at h
  | cons c rest ih =>
    simp only [codeInner] at h
    split at h
    · split at h
      · rename_i n' hn'
        simp only [Option.some.injEq] at h
        have := ih hn'
        omega
      · cases h
    · split at h
      · simp only [Option.some.injEq] at h
        omega
      · split at h
        · rename_i n' hn'
          simp only [Option.some.injEq] at h
          have := ih hn'
          omega
        · cases h

theorem codeSpanSp_le {s : List Char} {n : Nat} :
    ∀ {sp : Nat}, sp ≤ s.length → codeSpanSp s sp = some n → n ≤ s.length := by
  intro sp
  induction sp with
  | zero =>
    intro _ h
    exact codeInner_le h
  | succ sp ih =>
    intro hsp h
    simp only [codeSpanSp] at h
    split at h
    · rename_i n' hn'
      simp only [Option.some.injEq] at h
      have := codeInner_le hn'
      simp only [List.length_drop] at this
      omega
    · exact ih (by omega) h

theorem codeSpanSp_pos {s : List Char} {n : Nat} :
    ∀ {sp : Nat}, codeSpanSp s sp = some n → 1 ≤ n := by
  intro sp
  induction sp with
  | zero =>
    intro h
    exact codeInner_pos h
  | succ sp ih =>
    intro h
    simp only [codeSpanSp] at h
    split at h
    · simp only [Option.some.injEq] at h
      omega
    · exact ih h

theorem codeSpanFind_le {s : List Char} {n : Nat} (h : codeSpanFind s = some n) :
    n ≤ s.length := by
  simp only [codeSpanFind, Option.map_id] at h
  have hb := countP_le_length (fun c => c = bt) s
  split at h
  · cases h
  · split at h
    · simp only [Option.map_eq_some'] at h
      obtain ⟨n', hn', rfl⟩ := h
      have h1 := codeSpanSp_le (countP_le_length _ _) hn'
      simp only [List.length_drop] at h1
      omega
    · rcases orElse_eq_some_cases h with h1 | ⟨_, h1⟩
      all_goals
        simp only [Option.map_eq_some'] at h1
        obtain ⟨n', hn', rfl⟩ := h1
        have h2 := codeSpanSp_le (countP_le_length _ _) hn'
        simp only [List.length_drop] at h2
        omega

theorem codeSpanFind_pos {s : List Char} {n : Nat} (h : codeSpanFind s = some n) :
    1 ≤ n := by
  simp only [codeSpanFind, Option.map_id] at h
  split at h
  · cases h
  · split at h
    · simp only [Option.map_eq_some'] at h
      obtain ⟨n', _, rfl⟩ := h
      omega
    · rcases orElse_eq_some_cases h with h1 | ⟨_, h1⟩
      all_goals
        simp only [Option.map_eq_some'] at h1
        obtain ⟨n', _, rfl⟩ := h1
        omega

theorem gfmTail_le {F : Char} {s : List Char} {n : Nat}
    (h : gfmTail F s = some n) : n ≤ s.length := by
  simp only [gfmTail] at h
  have h1 := countP_le_length isWsRE s
  have h2 := countP_le_length (fun c => c = F) (s.drop (countP isWsRE s))
  have h3 := countP_le_length (fun c => c = '\n')
    (s.drop (countP isWsRE s + countP (fun c => c = F) (s.drop (countP isWsRE s))))
  simp only [List.length_drop] at h2 h3
  split at h
  · cases h
  · split at h
    · simp only [Option.some.injEq] at h
      omega
    · split at h
      · simp only [Option.some.injEq] at h
        omega
      · cases h

theorem gfmContent_le {F : Char} {s : List Char} {n : Nat}
    (h : gfmContent F s = some n) : n ≤ s.length := by
  induction s generalizing n with
  | nil => simp [gfmContent] at h
  | cons c rest ih =>
    simp only [gfmContent] at h
    split at h
    · rename_i t ht
      simp only [Option.some.injEq] at h
      have := gfmTail_le ht
      simp only [List.length_cons]
      omega
    · split at h
      · rename_i n' hn'
        simp only [Option.some.injEq] at h
        have := ih hn'
        simp only [List.length_cons]
        omega
      · cases h

theorem gfmContent_pos {F : Char} {s : List Char} {n : Nat}
    (h : gfmContent F s = some n) : 1 ≤ n := by
  cases s with
  | nil => simp [gfmContent] at h
  | cons c rest =>
    simp only [gfmContent] at h
    split at h
    · simp only [Option.some.injEq] at h
      omega
    · split at h
      · simp only [Option.some.injEq] at h
        omega
      · cases h

theorem gfmHead_le {F : Char} {s : List Char} {n : Nat} {tag : Option (List Char)}
    (h : gfmHead F s = some (n, tag)) : n ≤ s.length := by
  simp only [gfmHead] at h
  split at h
  · rename_i c hc
    split at h
    · split at h
      · rename_i n' hn'
        simp only [Option.some.injEq, Prod.mk.injEq] at h
        obtain ⟨h1, h2⟩ := h
        have hpos := head?_drop_lt hc
        have hcontent := gfmContent_le hn'
        simp only [List.length_drop] at hcontent
        omega
      · cases h
    · cases h
  · cases h

theorem gfmHead_nil (F : Char) : gfmHead F [] = none := by
  simp [gfmHead, countP_nil]

theorem gfmOpenLoop_le {F : Char} {s : List Char} {n : Nat} {tag : Option (List Char)} :
    ∀ {k : Nat}, gfmOpenLoop F s k = some (n, tag) → n ≤ s.length := by
  intro k
  induction k with
  | zero => intro h; simp [gfmOpenLoop] at h
  | succ k ih =>
    intro h
    simp only [gfmOpenLoop] at h
    split at h
    · cases h
    · split at h
      · rename_i n' tag' h'
        by_cases hk : k + 1 ≤ s.length
        · simp only [Option.some.injEq, Prod.mk.injEq] at h
          obtain ⟨h1, h2⟩ := h
          have := gfmHead_le h'
          simp only [List.length_drop] at this
          omega
        · rw [List.drop_eq_nil_of_le (by omega)] at h'
          rw [gfmHead_nil] at h'
          cases h'
      · exact ih h

theorem gfmOpenLoop_pos {F : Char} {s : List Char} {n : Nat} {tag : Option (List Char)} :
    ∀ {k : Nat}, gfmOpenLoop F s k = some (n, tag) → 1 ≤ n := by
  intro k
  induction k with
  | zero => intro h; simp [gfmOpenLoop] at h
  | succ k ih =>
    intro h
    simp only [gfmOpenLoop] at h
    split at h
    · cases h
    · split at h
      · simp only [Option.some.injEq, Prod.mk.injEq] at h
        obtain ⟨h1, h2⟩ := h
        omega
      · exact ih h

theorem gfmCodeFind_le {s : List Char} {n : Nat} {tag : Option (List Char)}
    (h : gfmCodeFind s = some (n, tag)) : n ≤ s.length := by
  unfold gfmCodeFind gfmFind at h
  rcases orElse_eq_some_cases h with h1 | ⟨_, h1⟩
  · exact gfmOpenLoop_le h1
  · exact gfmOpenLoop_le h1

theorem gfmCodeFind_pos {s : List Char} {n : Nat} {tag : Option (List Char)}
    (h : gfmCodeFind s = some (n, tag)) : 1 ≤ n := by
  unfold gfmCodeFind gfmFind at h
  rcases orElse_eq_some_cases h with h1 | ⟨_, h1⟩
  · exact gfmOpenLoop_pos h1
  · exact gfmOpenLoop_pos h1

theorem codeLoop_eq_some {s : List Char} {m : Nat} (h : codeRep s = some m) :
    codeLoop s = m + codeLoop (s.drop m) := by
  have hp := codeRep_pos h
  have hl := codeRep_le h
  obtain ⟨n, hn⟩ : ∃ n, s.length = n + 1 := ⟨s.length - 1, by omega⟩
  show codeLoopF s.length s = _
  rw [hn]
  simp only [codeLoopF, h]
  rw [codeLoopF_stable (by simp only [List.length_drop]; omega)]

theorem codeLoop_eq_none {s : List Char} (h : codeRep s = none) :
    codeLoop s = 0 := by
  show codeLoopF s.length s = 0
  cases hn : s.length with
  | zero => rfl
  | succ n => simp only [codeLoopF, h]

theorem codeLoop_le : ∀ (n : Nat) (s : List Char), s.length ≤ n →
    codeLoop s ≤ s.length := by
  intro n
  induction n with
  | zero =>
    intro s hs
    have : s = [] := List.length_eq_zero.mp (by omega)
    subst this
    simp [codeLoop, codeLoopF]
  | succ n ih =>
    intro s hs
    cases hrep : codeRep s with
    | none => rw [codeLoop_eq_none hrep]; omega
    | some m =>
      rw [codeLoop_eq_some hrep]
      have hp := codeRep_pos hrep
      have hl := codeRep_le hrep
      have := ih (s.drop m) (by simp [List.length_drop]; omega)
      simp only [List.length_drop] at this
      omega

theorem codeFind_le {s : List Char} {n : Nat} (h : codeFind s = some n) :
    n ≤ s.length := by
  simp only [codeFind] at h
  split at h
  · rename_i m hm
    simp only [Option.some.injEq] at h
    have h1 := codeRep_le hm
    have h2 := codeLoop_le (s.drop m).length (s.drop m) le_rfl
    simp only [List.length_drop] at h2
    omega
  · cases h

theorem codeFind_pos {s : List Char} {n : Nat} (h : codeFind s = some n) :
    1 ≤ n := by
  simp only [codeFind] at h
  split at h
  · rename_i m hm
    simp only [Option.some.injEq] at h
    have := codeRep_pos hm
    omega
  · cases h

theorem firstSpan_le {s : List Char} {t : ItemType} {n : Nat}
    (h : firstSpan s = some (t, n)) : n ≤ s.length := by
  simp only [firstSpan] at h
  split at h
  · rename_i m hm
    simp only [Option.some.injEq, Prod.mk.injEq] at h
    obtain ⟨h1, h2⟩ := h
    have := strongFind_le hm
    omega
  · split at h
    · rename_i m hm
      simp only [Option.some.injEq, Prod.mk.injEq] at h
      obtain ⟨h1, h2⟩ := h
      have := italicFind_le hm
      omega
    · split at h
      · rename_i m hm
        simp only [Option.some.injEq, Prod.mk.injEq] at h
        obtain ⟨h1, h2⟩ := h
        have := strikeFind_le hm
        omega
      · split at h
        · rename_i m hm
          simp only [Option.some.injEq, Prod.mk.injEq] at h
          obtain ⟨h1, h2⟩ := h
          have := codeSpanFind_le hm
          omega
        · cases h

theorem runF_isSome_mono {n m : Nat} (h : n ≤ m) {l : LS} {s : SF}
    (hs : (runF n l s).isSome) : (runF m l s).isSome := by
  obtain ⟨r, hr⟩ := Option.isSome_iff_exists.mp hs
  rw [runF_mono h hr]
  rfl

theorem runF_succ_cont {l l' : LS} {s s' : SF}
    (h : lexStep l s = .cont l' s') (k : Nat) :
    runF (k + 1) l s = runF k l' s' := by
  simp [runF, h]

theorem runF_succ_halt {l l' : LS} {s : SF}
    (h : lexStep l s = .halt l') (k : Nat) :
    runF (k + 1) l s = some (.ok l'.items) := by
  simp [runF, h]

theorem runF_succ_crash {l l' : LS} {s : SF}
    (h : lexStep l s = .crash l') (k : Nat) :
    runF (k + 1) l s = some (.crashed l'.items) := by
  simp [runF, h]

theorem headingFind_nil : headingFind [] = none := by decide

theorem hrFind_nil : hrFind [] = none := by decide

theorem gfmCodeFind_nil : gfmCodeFind [] = none := by decide

theorem codeFind_nil : codeFind [] = none := by decide

theorem emitTok_pos (l : LS) (t : ItemType) : (emitTok l t).pos = l.pos := rfl

theorem emitTok_input (l : LS) (t : ItemType) : (emitTok l t).input = l.input := rfl

/-- At end of input every state reaches the nil state (or has already
panicked) within 3 steps. -/
theorem runF_halts_eof (l : LS) (s : SF) (hle : l.input.length ≤ l.pos) :
    (runF 3 l s).isSome := by
  have hnone : l.input[l.pos]? = none := by
    rw [List.getElem?_eq_none hle]
  have hdrop : l.input.drop l.pos = [] := List.drop_eq_nil_of_le hle
  cases s with
  | any => simp [runF, lexStep, hnone]
  | text => simp [runF, lexStep, hnone]
  | heading =>
    simp [runF, lexStep, hnone, hdrop, headingFind_nil]
  | hr =>
    simp [runF, lexStep, hnone, hdrop, hrFind_nil]
  | gfmCode =>
    simp [runF, lexStep, hnone, hdrop, gfmCodeFind_nil]
  | code =>
    simp [runF, lexStep, hnone, hdrop, codeFind_nil, emitTok]
  | list =>
    simp [runF, lexStep, hnone]

theorem firstSpan_pos {s : List Char} {t : ItemType} {n : Nat}
    (h : firstSpan s = some (t, n)) : 1 ≤ n := by
  simp only [firstSpan] at h
  split at h
  · rename_i m hm
    simp only [Option.some.injEq, Prod.mk.injEq] at h
    obtain ⟨h1, h2⟩ := h
    have := strongFind_pos hm
    omega
  · split at h
    · rename_i m hm
      simp only [Option.some.injEq, Prod.mk.injEq] at h
      obtain ⟨h1, h2⟩ := h
      have := italicFind_pos hm
      omega
    · split at h
      · rename_i m hm
        simp only [Option.some.injEq, Prod.mk.injEq] at h
        obtain ⟨h1, h2⟩ := h
        have := strikeFind_pos hm
        omega
      · split at h
        · rename_i m hm
          simp only [Option.some.injEq, Prod.mk.injEq] at h
          obtain ⟨h1, h2⟩ := h
          have := codeSpanFind_pos hm
          omega
        · cases h

/-! ### Termination of the state machine -/

/-- At a non-end-of-input position, one `lexText` iteration always continues
(to `text` or back to `any`) after consuming at least one character. -/
theorem lexStep_text_progress {l : LS} {r : Char} (hr : l.input[l.pos]? = some r) :
    ∃ l' sf, lexStep l .text = .cont l' sf ∧ l'.input = l.input ∧
      l.pos + 1 ≤ l'.pos := by
  simp only [lexStep, hr]
  split
  · split
    · refine ⟨_, _, rfl, rfl, ?_⟩
      simp [emitTok]
    · refine ⟨_, _, rfl, rfl, ?_⟩
      simp [emitTok]
  · split
    · split
      · rename_i t m hspan
        refine ⟨_, _, rfl, rfl, ?_⟩
        have := firstSpan_pos hspan
        simp only [emitTok_pos]
        omega
      · refine ⟨_, _, rfl, rfl, ?_⟩
        simp [emitTok]
    · refine ⟨_, _, rfl, rfl, ?_⟩
      simp [emitTok]

theorem runF_halts :
    ∀ (n : Nat) (l : LS) (s : SF), l.input.length - l.pos ≤ n →
      (runF (6 * n + 6) l s).isSome := by
  intro n
  induction n with
  | zero =>
    intro l s hrem
    exact runF_isSome_mono (by omega) (runF_halts_eof l s (by omega))
  | succ n ih =>
    intro l s hrem
    by_cases heof : l.input.length ≤ l.pos
    · exact runF_isSome_mono (by omega) (runF_halts_eof l s heof)
    · have hlt : l.pos < l.input.length := by omega
      -- a lexText iteration consumes a character, then induction applies
      have htext : ∀ l' : LS, l'.input = l.input → l.pos ≤ l'.pos →
          (runF (6 * n + 7) l' .text).isSome := by
        intro l' hinp hpos
        by_cases heof' : l'.input.length ≤ l'.pos
        · exact runF_isSome_mono (by omega) (runF_halts_eof l' .text heof')
        · obtain ⟨r, hr⟩ : ∃ r, l'.input[l'.pos]? = some r := by
            refine ⟨l'.input[l'.pos], ?_⟩
            exact List.getElem?_eq_getElem (by omega)
          obtain ⟨l2, sf, hstep, hinp2, hpos2⟩ := lexStep_text_progress hr
          rw [show 6 * n + 7 = (6 * n + 6) + 1 from rfl, runF_succ_cont hstep]
          refine ih l2 sf ?_
          have h1 : l'.input.length = l.input.length := by rw [hinp]
          rw [hinp2, hinp]
          omega
      -- the simple rule states: match means consume and return to any,
      -- no match means fall through to text
      have hfind : ∀ (l' : LS) (sf : SF), l'.input = l.input → l.pos ≤ l'.pos →
          sf = .hr ∨ sf = .heading ∨ sf = .gfmCode ∨ sf = .list →
          (runF (6 * n + 8) l' sf).isSome := by
        intro l' sf hinp hpos hsf
        have hcont : ∀ (l2 : LS) (s2 : SF), lexStep l' sf = .cont l2 s2 →
            ((l2 = l' ∧ s2 = .text) ∨
              (∃ m t, 1 ≤ m ∧ l2 = emitTok { l' with pos := l'.pos + m } t ∧
                s2 = .any)) →
            (runF (6 * n + 8) l' sf).isSome := by
          intro l2 s2 hstep hcases
          rw [show 6 * n + 8 = (6 * n + 7) + 1 from rfl, runF_succ_cont hstep]
          rcases hcases with ⟨h7, rfl⟩ | ⟨m, t, hm, rfl, rfl⟩
          · rw [h7]
            exact htext l' hinp hpos
          · refine runF_isSome_mono (show 6 * n + 6 ≤ 6 * n + 7 by omega)
              (ih _ .any ?_)
            have h1 : l'.input.length = l.input.length := by rw [hinp]
            simp only [emitTok_pos, emitTok_input]
            omega
        rcases hsf with rfl | rfl | rfl | rfl
        · cases hf : hrFind (l'.input.drop l'.pos) with
          | none => exact hcont l' .text (by simp [lexStep, hf]) (Or.inl ⟨rfl, rfl⟩)
          | some m =>
            exact hcont (emitTok { l' with pos := l'.pos + m } .itemHr) .any
              (by simp [lexStep, hf])
              (Or.inr ⟨m, .itemHr, by have := hrFind_pos hf; omega, rfl, rfl⟩)
        · cases hf : headingFind (l'.input.drop l'.pos) with
          | none => exact hcont l' .text (by simp [lexStep, hf]) (Or.inl ⟨rfl, rfl⟩)
          | some p =>
            obtain ⟨m, cap⟩ := p
            exact hcont (emitTok { l' with pos := l'.pos + m } .itemHeading) .any
              (by simp [lexStep, hf])
              (Or.inr ⟨m, .itemHeading, headingFind_pos hf, rfl, rfl⟩)
        · cases hf : gfmCodeFind (l'.input.drop l'.pos) with
          | none => exact hcont l' .text (by simp [lexStep, hf]) (Or.inl ⟨rfl, rfl⟩)
          | some p =>
            obtain ⟨m, tag⟩ := p
            exact hcont (emitTok { l' with pos := l'.pos + m } .itemGfmCodeBlock) .any
              (by simp [lexStep, hf])
              (Or.inr ⟨m, .itemGfmCodeBlock, gfmCodeFind_pos hf, rfl, rfl⟩)
        · exact hcont l' .text rfl (Or.inl ⟨rfl, rfl⟩)
      have hany : ∀ l' : LS, l'.input = l.input → l.pos ≤ l'.pos →
          (runF (6 * n + 10) l' .any).isSome := by
        intro l' hinp hpos
        by_cases heof' : l'.input.length ≤ l'.pos
        · exact runF_isSome_mono (by omega) (runF_halts_eof l' .any heof')
        · obtain ⟨r, hr⟩ : ∃ r, l'.input[l'.pos]? = some r := by
            refine ⟨l'.input[l'.pos], ?_⟩
            exact List.getElem?_eq_getElem (by omega)
          rw [show 6 * n + 10 = (6 * n + 9) + 1 from rfl]
          by_cases h1 : (decide (r = '*') || decide (r = '-')) = true
          · by_cases h2 : (decide (l'.input[l'.pos + 1]? = some '*') ||
                decide (l'.input[l'.pos + 1]? = some '-')) = true
            · have hstep : lexStep l' .any = .cont
                  { l' with
                    pos := l'.pos + 1 -
                      (if (l'.input[l'.pos + 1]?).isSome = true then 1 else 0),
                    width :=
                      (if (l'.input[l'.pos + 1]?).isSome = true then 1 else 0) }
                  .hr := by
                simp only [lexStep, hr]
                rw [if_pos h1, if_pos h2]
              rw [runF_succ_cont hstep]
              refine runF_isSome_mono (show 6 * n + 8 ≤ 6 * n + 9 by omega)
                (hfind _ .hr hinp ?_ (by simp))
              show l.pos ≤ l'.pos + 1 -
                (if (l'.input[l'.pos + 1]?).isSome = true then 1 else 0)
              split <;> omega
            · have hstep : lexStep l' .any = .cont
                  { l' with
                    pos := l'.pos + 1 -
                      (if (l'.input[l'.pos + 1]?).isSome = true then 1 else 0),
                    width :=
                      (if (l'.input[l'.pos + 1]?).isSome = true then 1 else 0) }
                  .list := by
                simp only [lexStep, hr]
                rw [if_pos h1, if_neg h2]
              rw [runF_succ_cont hstep]
              refine runF_isSome_mono (show 6 * n + 8 ≤ 6 * n + 9 by omega)
                (hfind _ .list hinp ?_ (by simp))
              show l.pos ≤ l'.pos + 1 -
                (if (l'.input[l'.pos + 1]?).isSome = true then 1 else 0)
              split <;> omega
          · by_cases h2 : r = '#'
            · have hstep : lexStep l' .any =
                  .cont { l' with pos := l'.pos, width := 1 } .heading := by
                simp only [lexStep, hr]
                rw [if_neg h1, if_pos h2]
              rw [runF_succ_cont hstep]
              exact runF_isSome_mono (show 6 * n + 8 ≤ 6 * n + 9 by omega)
                (hfind _ .heading hinp hpos (by simp))
            · by_cases h3 : (decide (r = ' ') &&
                  (codeFind (List.drop l'.pos l'.input)).isSome) = true
              · have hcf : (codeFind (l'.input.drop l'.pos)).isSome := by
                  simp only [Bool.and_eq_true] at h3
                  exact h3.2
                obtain ⟨m, hm⟩ := Option.isSome_iff_exists.mp hcf
                have hstep : lexStep l' .any =
                    .cont { l' with pos := l'.pos, width := 1 } .code := by
                  simp only [lexStep, hr]
                  rw [if_neg h1, if_neg h2, if_pos h3]
                have hstep2 : lexStep { l' with pos := l'.pos, width := 1 } .code =
                    .cont (emitTok { l' with pos := l'.pos + m, width := 1 }
                      .itemCodeBlock) .any := by
                  simp [lexStep, hm]
                rw [runF_succ_cont hstep,
                  show 6 * n + 9 = (6 * n + 8) + 1 from rfl,
                  runF_succ_cont hstep2]
                refine runF_isSome_mono (show 6 * n + 6 ≤ 6 * n + 8 by omega)
                  (ih _ .any ?_)
                have h1l : l'.input.length = l.input.length := by rw [hinp]
                have := codeFind_pos hm
                simp only [emitTok_pos, emitTok_input]
                omega
              · by_cases h4 : (decide (r = ' ') || decide (r = bt) ||
                    decide (r = '~')) = true
                · by_cases h5 : l'.input.length < l'.pos + 1 + 2
                  · have hstep : lexStep l' .any =
                        .crash { l' with pos := l'.pos + 1, width := 1 } := by
                      simp only [lexStep, hr]
                      rw [if_neg h1, if_neg h2, if_neg h3, if_pos h4, if_pos h5]
                    rw [runF_succ_crash hstep]
                    rfl
                  · by_cases h6 : (decide
                          (List.take 2 (List.drop (l'.pos + 1) l'.input) =
                            [bt, bt]) ||
                        decide
                          (List.take 2 (List.drop (l'.pos + 1) l'.input) =
                            ['~', '~'])) = true
                    · have hstep : lexStep l' .any =
                          .cont { l' with pos := l'.pos, width := 1 } .gfmCode := by
                        simp only [lexStep, hr]
                        rw [if_neg h1, if_neg h2, if_neg h3, if_pos h4, if_neg h5,
                          if_pos h6]
                      rw [runF_succ_cont hstep]
                      exact runF_isSome_mono (show 6 * n + 8 ≤ 6 * n + 9 by omega)
                        (hfind _ .gfmCode hinp hpos (by simp))
                    · have hstep : lexStep l' .any =
                          .cont { l' with pos := l'.pos, width := 1 } .text := by
                        simp only [lexStep, hr]
                        rw [if_neg h1, if_neg h2, if_neg h3, if_pos h4, if_neg h5,
                          if_neg h6]
                      rw [runF_succ_cont hstep]
                      exact runF_isSome_mono (show 6 * n + 7 ≤ 6 * n + 9 by omega)
                        (htext _ hinp hpos)
                · have hstep : lexStep l' .any =
                      .cont { l' with pos := l'.pos, width := 1 } .text := by
                    simp only [lexStep, hr]
                    rw [if_neg h1, if_neg h2, if_neg h3, if_neg h4]
                  rw [runF_succ_cont hstep]
                  exact runF_isSome_mono (show 6 * n + 7 ≤ 6 * n + 9 by omega)
                    (htext _ hinp hpos)
      cases s with
      | text => exact runF_isSome_mono (by omega) (htext l rfl le_rfl)
      | any => exact runF_isSome_mono (by omega) (hany l rfl le_rfl)
      | hr => exact runF_isSome_mono (by omega) (hfind l .hr rfl le_rfl (by simp))
      | heading =>
        exact runF_isSome_mono (by omega) (hfind l .heading rfl le_rfl (by simp))
      | gfmCode =>
        exact runF_isSome_mono (by omega) (hfind l .gfmCode rfl le_rfl (by simp))
      | list =>
        exact runF_isSome_mono (by omega) (hfind l .list rfl le_rfl (by simp))
      | code =>
        cases hf : codeFind (l.input.drop l.pos) with
        | some m =>
          have hstep : lexStep l .code =
              .cont (emitTok { l with pos := l.pos + m } .itemCodeBlock) .any := by
            simp [lexStep, hf]
          rw [show 6 * (n + 1) + 6 = (6 * n + 11) + 1 from by omega,
            runF_succ_cont hstep]
          refine runF_isSome_mono (show 6 * n + 6 ≤ 6 * n + 11 by omega)
            (ih _ .any ?_)
          have := codeFind_pos hf
          simp only [emitTok_pos, emitTok_input]
          omega
        | none =>
          have hstep : lexStep l .code =
              .cont (emitTok { l with pos := l.pos } .itemCodeBlock) .any := by
            simp [lexStep, hf]
          rw [show 6 * (n + 1) + 6 = (6 * n + 11) + 1 from by omega,
            runF_succ_cont hstep]
          refine runF_isSome_mono (show 6 * n + 10 ≤ 6 * n + 11 by omega)
            (hany _ rfl ?_)
          simp [emitTok]

theorem runF_lexFuel_isSome (s : List Char) :
    (runF (lexFuel s) (initLS s) .any).isSome :=
  runF_halts s.length (initLS s) .any (by simp [initLS])

/-! ### The emitted-item invariant -/

/-- A well-formed item: its value is the contiguous slice of the input
beginning at its recorded position. -/
def goodItem (input : List Char) (it : Item) : Prop :=
  it.val = (input.drop it.pos).take it.val.length ∧
  it.pos + it.val.length ≤ input.length

/-- Run invariant: the item start never passes the cursor, the cursor stays
in bounds, and the items emitted so far are well-formed, nonempty, in
non-decreasing position order, and all end at or before `start`. -/
def Inv (l : LS) : Prop :=
  l.start ≤ l.pos ∧ l.pos ≤ l.input.length ∧
  l.items.Pairwise (fun a b => a.pos ≤ b.pos) ∧
  ∀ it ∈ l.items, goodItem l.input it ∧
    it.pos + it.val.length ≤ l.start ∧ 1 ≤ it.val.length

theorem inv_initLS (s : List Char) : Inv (initLS s) := by
  refine ⟨le_rfl, by simp [initLS], by simp [initLS], ?_⟩
  simp [initLS]

theorem inv_set_pos {l : LS} (h : Inv l) {p w : Nat}
    (h1 : l.start ≤ p) (h2 : p ≤ l.input.length) :
    Inv { l with pos := p, width := w } := by
  obtain ⟨_, _, hpair, hitems⟩ := h
  exact ⟨h1, h2, hpair, hitems⟩

theorem take_own_length {L : List Char} {n : Nat} :
    L.take ((L.take n).length) = L.take n := by
  rcases Nat.le_total n L.length with hc | hc
  · rw [List.length_take, Nat.min_eq_left hc]
  · rw [List.length_take, Nat.min_eq_right hc,
      List.take_of_length_le le_rfl, List.take_of_length_le hc]

theorem inv_emit {l : LS} (h : Inv l) {p w : Nat} (t : ItemType)
    (h1 : l.start < p) (h2 : p ≤ l.input.length) :
    Inv (emitTok { l with pos := p, width := w } t) := by
  obtain ⟨hsp, hpl, hpair, hitems⟩ := h
  have hlen : ((l.input.drop l.start).take (p - l.start)).length =
      min (p - l.start) (l.input.length - l.start) := by
    simp [List.length_take, List.length_drop]
  unfold Inv
  simp only [emitTok]
  refine ⟨le_rfl, h2, ?_, ?_⟩
  · rw [List.pairwise_append]
    refine ⟨hpair, by simp, ?_⟩
    intro a ha b hb
    simp only [List.mem_singleton] at hb
    subst hb
    have := (hitems a ha).2.1
    simp only []
    omega
  · intro it hit
    simp only [List.mem_append, List.mem_singleton] at hit
    rcases hit with hold | rfl
    · obtain ⟨hg, hsb, hne⟩ := hitems it hold
      exact ⟨hg, by omega, hne⟩
    · refine ⟨⟨?_, ?_⟩, ?_, ?_⟩
      · show (l.input.drop l.start).take (p - l.start) =
          (l.input.drop l.start).take
            (((l.input.drop l.start).take (p - l.start)).length)
        rw [take_own_length]
      · show l.start + ((l.input.drop l.start).take (p - l.start)).length ≤
          l.input.length
        rw [hlen]
        omega
      · show l.start + ((l.input.drop l.start).take (p - l.start)).length ≤ p
        rw [hlen]
        omega
      · show 1 ≤ ((l.input.drop l.start).take (p - l.start)).length
        rw [hlen]
        omega

/-- The lexer state carried by a step outcome. -/
def stepState : Step → LS
  | .crash l => l
  | .halt l => l
  | .cont l _ => l

theorem getElem?_some_lt {L : List Char} {i : Nat} {c : Char}
    (h : L[i]? = some c) : i < L.length := by
  by_contra hc
  rw [List.getElem?_eq_none (by omega)] at h
  cases h

/-- Step outcome facts bundled for the invariant induction. -/
def StepOk (l : LS) (s : SF) : Prop :=
  Inv (stepState (lexStep l s)) ∧ (stepState (lexStep l s)).input = l.input ∧
  ∀ l2 s2, lexStep l s = .cont l2 s2 → s2 = .code →
    (codeFind (l2.input.drop l2.pos)).isSome

theorem lexStep_inv_any (l : LS) (h : Inv l) : StepOk l .any := by
  have h0 := h
  obtain ⟨hsp, hpl, -, -⟩ := h0
  cases hr : l.input[l.pos]? with
  | none =>
    have hstep : lexStep l .any = .halt { l with width := 0 } := by
      simp [lexStep, hr]
    refine ⟨?_, ?_, ?_⟩
    · rw [hstep]
      exact inv_set_pos h hsp hpl
    · rw [hstep]
      rfl
    · intro l2 s2 hc hs2
      rw [hstep] at hc
      cases hc
  | some r =>
    have hlt : l.pos < l.input.length := getElem?_some_lt hr
    by_cases h1 : (decide (r = '*') || decide (r = '-')) = true
    · have hwle : (if (l.input[l.pos + 1]?).isSome = true then 1 else 0) ≤ 1 := by
        split <;> omega
      have hpbound : l.start ≤ l.pos + 1 -
          (if (l.input[l.pos + 1]?).isSome = true then 1 else 0) := by
        omega
      have hpbound2 : l.pos + 1 -
          (if (l.input[l.pos + 1]?).isSome = true then 1 else 0) ≤
          l.input.length := by
        omega
      by_cases h2 : (decide (l.input[l.pos + 1]? = some '*') ||
          decide (l.input[l.pos + 1]? = some '-')) = true
      · have hstep : lexStep l .any = .cont
            { l with
              pos := l.pos + 1 -
                (if (l.input[l.pos + 1]?).isSome = true then 1 else 0),
              width := (if (l.input[l.pos + 1]?).isSome = true then 1 else 0) }
            .hr := by
          simp only [lexStep, hr]
          rw [if_pos h1, if_pos h2]
        refine ⟨?_, ?_, ?_⟩
        · rw [hstep]
          exact inv_set_pos h hpbound hpbound2
        · rw [hstep]
          rfl
        · intro l2 s2 hc hs2
          rw [hstep] at hc
          injection hc with hc1 hc2
          rw [← hc2] at hs2
          cases hs2
      · have hstep : lexStep l .any = .cont
            { l with
              pos := l.pos + 1 -
                (if (l.input[l.pos + 1]?).isSome = true then 1 else 0),
              width := (if (l.input[l.pos + 1]?).isSome = true then 1 else 0) }
            .list := by
          simp only [lexStep, hr]
          rw [if_pos h1, if_neg h2]
        refine ⟨?_, ?_, ?_⟩
        · rw [hstep]
          exact inv_set_pos h hpbound hpbound2
        · rw [hstep]
          rfl
        · intro l2 s2 hc hs2
          rw [hstep] at hc
          injection hc with hc1 hc2
          rw [← hc2] at hs2
          cases hs2
    · by_cases h2 : r = '#'
      · have hstep : lexStep l .any =
            .cont { l with pos := l.pos, width := 1 } .heading := by
          simp only [lexStep, hr]
          rw [if_neg h1, if_pos h2]
        refine ⟨?_, ?_, ?_⟩
        · rw [hstep]
          exact inv_set_pos h hsp hpl
        · rw [hstep]
          rfl
        · intro l2 s2 hc hs2
          rw [hstep] at hc
          injection hc with hc1 hc2
          rw [← hc2] at hs2
          cases hs2
      · by_cases h3 : (decide (r = ' ') &&
            (codeFind (List.drop l.pos l.input)).isSome) = true
        · have hstep : lexStep l .any =
              .cont { l with pos := l.pos, width := 1 } .code := by
            simp only [lexStep, hr]
            rw [if_neg h1, if_neg h2, if_pos h3]
          refine ⟨?_, ?_, ?_⟩
          · rw [hstep]
            exact inv_set_pos h hsp hpl
          · rw [hstep]
            rfl
          · intro l2 s2 hc hs2
            rw [hstep] at hc
            injection hc with hc1 hc2
            rw [← hc1]
            simp only [Bool.and_eq_true] at h3
            exact h3.2
        · by_cases h4 : (decide (r = ' ') || decide (r = bt) ||
              decide (r = '~')) = true
          · by_cases h5 : l.input.length < l.pos + 1 + 2
            · have hstep : lexStep l .any =
                  .crash { l with pos := l.pos + 1, width := 1 } := by
                simp only [lexStep, hr]
                rw [if_neg h1, if_neg h2, if_neg h3, if_pos h4, if_pos h5]
              refine ⟨?_, ?_, ?_⟩
              · rw [hstep]
                exact inv_set_pos h (by omega) (by omega)
              · rw [hstep]
                rfl
              · intro l2 s2 hc hs2
                rw [hstep] at hc
                cases hc
            · by_cases h6 : (decide
                    (List.take 2 (List.drop (l.pos + 1) l.input) = [bt, bt]) ||
                  decide
                    (List.take 2 (List.drop (l.pos + 1) l.input) = ['~', '~'])) =
                  true
              · have hstep : lexStep l .any =
                    .cont { l with pos := l.pos, width := 1 } .gfmCode := by
                  simp only [lexStep, hr]
                  rw [if_neg h1, if_neg h2, if_neg h3, if_pos h4, if_neg h5,
                    if_pos h6]
                refine ⟨?_, ?_, ?_⟩
                · rw [hstep]
                  exact inv_set_pos h hsp hpl
                · rw [hstep]
                  rfl
                · intro l2 s2 hc hs2
                  rw [hstep] at hc
                  injection hc with hc1 hc2
                  rw [← hc2] at hs2
                  cases hs2
              · have hstep : lexStep l .any =
                    .cont { l with pos := l.pos, width := 1 } .text := by
                  simp only [lexStep, hr]
                  rw [if_neg h1, if_neg h2, if_neg h3, if_pos h4, if_neg h5,
                    if_neg h6]
                refine ⟨?_, ?_, ?_⟩
                · rw [hstep]
                  exact inv_set_pos h hsp hpl
                · rw [hstep]
                  rfl
                · intro l2 s2 hc hs2
                  rw [hstep] at hc
                  injection hc with hc1 hc2
                  rw [← hc2] at hs2
                  cases hs2
          · have hstep : lexStep l .any =
                .cont { l with pos := l.pos, width := 1 } .text := by
              simp only [lexStep, hr]
              rw [if_neg h1, if_neg h2, if_neg h3, if_neg h4]
            refine ⟨?_, ?_, ?_⟩
            · rw [hstep]
              exact inv_set_pos h hsp hpl
            · rw [hstep]
              rfl
            · intro l2 s2 hc hs2
              rw [hstep] at hc
              injection hc with hc1 hc2
              rw [← hc2] at hs2
              cases hs2

theorem stepOk_of_cont_text {l l2 : LS} {s : SF}
    (hstep : lexStep l s = .cont l2 .text) (h2 : Inv l2)
    (hinp : l2.input = l.input) :
    StepOk l s := by
  refine ⟨?_, ?_, ?_⟩
  · rw [hstep]
    exact h2
  · rw [hstep]
    exact hinp
  · intro l3 s3 hc hs3
    rw [hstep] at hc
    injection hc with hc1 hc2
    rw [← hc2] at hs3
    cases hs3

theorem stepOk_of_cont_any {l l2 : LS} {s : SF}
    (hstep : lexStep l s = .cont l2 .any) (h2 : Inv l2)
    (hinp : l2.input = l.input) :
    StepOk l s := by
  refine ⟨?_, ?_, ?_⟩
  · rw [hstep]
    exact h2
  · rw [hstep]
    exact hinp
  · intro l3 s3 hc hs3
    rw [hstep] at hc
    injection hc with hc1 hc2
    rw [← hc2] at hs3
    cases hs3

theorem lexStep_inv_text (l : LS) (h : Inv l) : StepOk l .text := by
  have h0 := h
  obtain ⟨hsp, hpl, -, -⟩ := h0
  cases hr : l.input[l.pos]? with
  | none =>
    have hstep : lexStep l .text =
        .cont { l with pos := l.pos, width := 0 } .any := by
      simp [lexStep, hr]
    exact stepOk_of_cont_any hstep (inv_set_pos h hsp hpl) rfl
  | some r =>
    have hlt := getElem?_some_lt hr
    by_cases h1 : (decide (r = '\n') || decide (r = ' ')) = true
    · cases hpk : l.input[l.pos + 1]? with
      | none =>
        have hstep : lexStep l .text =
            .cont (emitTok { l with pos := l.pos + 1, width := 0 } .itemText)
              .text := by
          simp only [lexStep, hr, hpk]
          rw [if_pos h1, if_neg (by simp)]
          simp
        exact stepOk_of_cont_text hstep
          (inv_emit h .itemText (by omega) (by omega)) rfl
      | some c2 =>
        have hlt2 : l.pos + 1 < l.input.length := getElem?_some_lt hpk
        by_cases h2 : (decide (r = '\n') &&
              decide ((some c2 : Option Char) = some '\n') ||
            decide (r = ' ') && decide ((some c2 : Option Char) = some ' ')) =
            true
        · have hstep : lexStep l .text =
              .cont (emitTok { l with pos := l.pos + 1 + 1, width := 1 }
                .itemNewLine) .any := by
            simp only [lexStep, hr, hpk]
            rw [if_pos h1, if_pos h2]
            simp
          exact stepOk_of_cont_any hstep
            (inv_emit h .itemNewLine (by omega) (by omega)) rfl
        · have hstep : lexStep l .text =
              .cont (emitTok { l with pos := l.pos + 1, width := 1 } .itemText)
                .text := by
            simp only [lexStep, hr, hpk]
            rw [if_pos h1, if_neg h2]
            simp
          exact stepOk_of_cont_text hstep
            (inv_emit h .itemText (by omega) (by omega)) rfl
    · by_cases hd : isDelim r = true
      · cases hspan : firstSpan (l.input.drop l.pos) with
        | some p =>
          obtain ⟨t, m⟩ := p
          have hmp := firstSpan_pos hspan
          have hml := firstSpan_le hspan
          simp only [List.length_drop] at hml
          have hstep : lexStep l .text =
              .cont (emitTok { l with pos := l.pos + m, width := 1 } t)
                .text := by
            simp [lexStep, hr, h1, hd, hspan]
          exact stepOk_of_cont_text hstep
            (inv_emit h t (by omega) (by omega)) rfl
        | none =>
          have hstep : lexStep l .text =
              .cont (emitTok { l with pos := l.pos + 1, width := 1 } .itemText)
                .text := by
            simp [lexStep, hr, h1, hd, hspan]
          exact stepOk_of_cont_text hstep
            (inv_emit h .itemText (by omega) (by omega)) rfl
      · have hstep : lexStep l .text =
            .cont (emitTok { l with pos := l.pos + 1, width := 1 } .itemText)
              .text := by
          simp [lexStep, hr, h1, hd]
        exact stepOk_of_cont_text hstep
          (inv_emit h .itemText (by omega) (by omega)) rfl

theorem lexStep_inv_find (l : LS) (s : SF) (h : Inv l)
    (hcode : s = .code → (codeFind (l.input.drop l.pos)).isSome)
    (hsf : s = .hr ∨ s = .heading ∨ s = .gfmCode ∨ s = .code ∨ s = .list) :
    StepOk l s := by
  have h0 := h
  obtain ⟨hsp, hpl, -, -⟩ := h0
  rcases hsf with rfl | rfl | rfl | rfl | rfl
  · cases hf : hrFind (l.input.drop l.pos) with
    | none =>
      exact stepOk_of_cont_text (by simp [lexStep, hf]) h rfl
    | some m =>
      have hml := hrFind_le hf
      simp only [List.length_drop] at hml
      have hstep : lexStep l .hr =
          .cont (emitTok { l with pos := l.pos + m, width := l.width } .itemHr)
            .any := by
        simp [lexStep, hf]
      exact stepOk_of_cont_any hstep
        (inv_emit h .itemHr (by have := hrFind_pos hf; omega) (by omega)) rfl
  · cases hf : headingFind (l.input.drop l.pos) with
    | none =>
      exact stepOk_of_cont_text (by simp [lexStep, hf]) h rfl
    | some p =>
      obtain ⟨m, cap⟩ := p
      have hml := headingFind_le hf
      simp only [List.length_drop] at hml
      have hstep : lexStep l .heading =
          .cont (emitTok { l with pos := l.pos + m, width := l.width }
            .itemHeading) .any := by
        simp [lexStep, hf]
      exact stepOk_of_cont_any hstep
        (inv_emit h .itemHeading (by have := headingFind_pos hf; omega)
          (by omega)) rfl
  · cases hf : gfmCodeFind (l.input.drop l.pos) with
    | none =>
      exact stepOk_of_cont_text (by simp [lexStep, hf]) h rfl
    | some p =>
      obtain ⟨m, tag⟩ := p
      have hml := gfmCodeFind_le hf
      simp only [List.length_drop] at hml
      have hstep : lexStep l .gfmCode =
          .cont (emitTok { l with pos := l.pos + m, width := l.width }
            .itemGfmCodeBlock) .any := by
        simp [lexStep, hf]
      exact stepOk_of_cont_any hstep
        (inv_emit h .itemGfmCodeBlock (by have := gfmCodeFind_pos hf; omega)
          (by omega)) rfl
  · obtain ⟨m, hm⟩ := Option.isSome_iff_exists.mp (hcode rfl)
    have hml := codeFind_le hm
    simp only [List.length_drop] at hml
    have hstep : lexStep l .code =
        .cont (emitTok { l with pos := l.pos + m, width := l.width }
          .itemCodeBlock) .any := by
      simp [lexStep, hm]
    exact stepOk_of_cont_any hstep
      (inv_emit h .itemCodeBlock (by have := codeFind_pos hm; omega)
        (by omega)) rfl
  · exact stepOk_of_cont_text rfl h rfl

/-- Every step preserves the invariant, keeps the input unchanged, and
establishes the `lexCode` precondition for any `code` successor. -/
theorem lexStep_inv (l : LS) (s : SF) (h : Inv l)
    (hcode : s = .code → (codeFind (l.input.drop l.pos)).isSome) :
    StepOk l s := by
  cases s with
  | any => exact lexStep_inv_any l h
  | text => exact lexStep_inv_text l h
  | hr => exact lexStep_inv_find l .hr h (by simp) (by simp)
  | heading => exact lexStep_inv_find l .heading h (by simp) (by simp)
  | gfmCode => exact lexStep_inv_find l .gfmCode h (by simp) (by simp)
  | code => exact lexStep_inv_find l .code h hcode (by simp)
  | list => exact lexStep_inv_find l .list h (by simp) (by simp)

/-- Any completed run (normal or panicking) emits only well-formed, nonempty
items in non-decreasing position order. -/
theorem runF_inv :
    ∀ (n : Nat) (l : LS) (s : SF), Inv l →
      (s = .code → (codeFind (l.input.drop l.pos)).isSome) →
      ∀ res, runF n l s = some res →
        res.toItems.Pairwise (fun a b => a.pos ≤ b.pos) ∧
        ∀ it ∈ res.toItems, goodItem l.input it ∧ 1 ≤ it.val.length := by
  intro n
  induction n with
  | zero =>
    intro l s _ _ res hres
    simp [runF] at hres
  | succ n ih =>
    intro l s hinv hcode res hres
    obtain ⟨hinv2, hinp2, hnext⟩ := lexStep_inv l s hinv hcode
    simp only [runF] at hres
    cases hstep : lexStep l s with
    | crash l2 =>
      rw [hstep] at hres
      simp only [Option.some.injEq] at hres
      subst hres
      rw [hstep] at hinv2 hinp2
      simp only [stepState] at hinv2 hinp2
      obtain ⟨-, -, hpair, hitems⟩ := hinv2
      refine ⟨hpair, ?_⟩
      intro it hit
      obtain ⟨hg, -, hne⟩ := hitems it hit
      rw [hinp2] at hg
      exact ⟨hg, hne⟩
    | halt l2 =>
      rw [hstep] at hres
      simp only [Option.some.injEq] at hres
      subst hres
      rw [hstep] at hinv2 hinp2
      simp only [stepState] at hinv2 hinp2
      obtain ⟨-, -, hpair, hitems⟩ := hinv2
      refine ⟨hpair, ?_⟩
      intro it hit
      obtain ⟨hg, -, hne⟩ := hitems it hit
      rw [hinp2] at hg
      exact ⟨hg, hne⟩
    | cont l2 s2 =>
      rw [hstep] at hres
      rw [hstep] at hinv2 hinp2
      simp only [stepState] at hinv2 hinp2
      obtain ⟨hpair, hgood⟩ := ih l2 s2 hinv2 (hnext l2 s2 hstep) res hres
      refine ⟨hpair, ?_⟩
      intro it hit
      obtain ⟨hg, hne⟩ := hgood it hit
      rw [hinp2] at hg
      exact ⟨hg, hne⟩

theorem lexTokens_eq (s : List Char) :
    runF (lexFuel s) (initLS s) .any = some (lexTokens s) := by
  obtain ⟨r, hr⟩ := Option.isSome_iff_exists.mp (runF_lexFuel_isSome s)
  rw [hr]
  simp [lexTokens, hr]

theorem lexTokens_inv (s : List Char) :
    (lexTokens s).toItems.Pairwise (fun a b => a.pos ≤ b.pos) ∧
    ∀ it ∈ (lexTokens s).toItems, goodItem s it ∧ 1 ≤ it.val.length := by
  have h := runF_inv (lexFuel s) (initLS s) .any (inv_initLS s) (by simp)
    (lexTokens s) (lexTokens_eq s)
  exact h

/-! ### The claims -/

/-- C1: the spec guarantees that a conversion always produces some HTML
string for any input, including the empty string; but `lexAny`'s two-byte
lookahead slice `l.input[l.pos:l.pos+2]` is out of range on the one-character
inputs "`", "~" and " ", so the lexer goroutine panics and the conversion
aborts instead of producing a string.  (The code, not the claim, is at
fault.) -/
theorem mark_c1 :
    lexTokens [bt] = .crashed [] ∧
    lexTokens [' '] = .crashed [] ∧
    lexTokens ['\n', '\n', ' '] =
      .crashed [⟨.itemNewLine, 0, ['\n', '\n']⟩] := by
  refine ⟨by decide, by decide, by decide⟩

/-- C2 (counterexample): on the input "~" the run panics on the
out-of-range lookahead slice, so `run` does not reach the nil state and
never closes the item channel; the claim that it does so for every input is
false. -/
theorem mark_c2_counterexample :
    lexTokens ['~'] = .crashed [] := by decide

/-- C2 (amended): for every input the state machine halts after finitely
many steps — either reaching the nil state (closing the channel) or
aborting on the out-of-range gfm lookahead — and it never loops without
consuming input: every token it emits consumes at least one character. -/
theorem mark_c2 (s : List Char) :
    (runF (lexFuel s) (initLS s) .any).isSome ∧
    ∀ it ∈ (lexTokens s).toItems, 1 ≤ it.val.length :=
  ⟨runF_lexFuel_isSome s, fun it hit => ((lexTokens_inv s).2 it hit).2⟩

/-- C2 witness. -/
theorem mark_c2_witness :
    (runF (lexFuel ['a']) (initLS ['a']) .any).isSome ∧
    1 ≤ (⟨.itemText, 0, ['a']⟩ : Item).val.length :=
  ⟨(mark_c2 ['a']).1, (mark_c2 ['a']).2 ⟨.itemText, 0, ['a']⟩ (by decide)⟩

/-- C9: every emitted token's value is exactly the slice of the input that
begins at its recorded position and ends at the cursor at emission time
(so the position is the offset where the value begins and the value stays
within the input), and across the emitted sequence the positions are
monotonically non-decreasing.  Tokens are never mutated after emission: the
emitted list only ever grows by appending. -/
theorem mark_c9 (input : List Char) :
    (lexTokens input).toItems.Pairwise (fun a b => a.pos ≤ b.pos) ∧
    ∀ it ∈ (lexTokens input).toItems,
      it.val = (input.drop it.pos).take it.val.length ∧
      it.pos + it.val.length ≤ input.length := by
  obtain ⟨hpair, hgood⟩ := lexTokens_inv input
  exact ⟨hpair, fun it hit => (hgood it hit).1⟩

/-- C9 witness. -/
theorem mark_c9_witness :
    (⟨.itemText, 1, ['b']⟩ : Item).val =
      ((['a', 'b'] : List Char).drop 1).take 1 :=
  ((mark_c9 ['a', 'b']).2 ⟨.itemText, 1, ['b']⟩ (by decide)).1

/-- C4: the spec (and the doc comment of `lexList`) says list lines produce
a list construct, but `lexList` is an unimplemented stub that immediately
falls through to `lexText`: "- foo" lexes as five one-character text
tokens, "1. one" is not even routed through the list rule, and no `itemList`
token is ever emitted.  (The code, not the claim, is at fault.) -/
theorem mark_c4 :
    lexTokens ['-', ' ', 'f', 'o', 'o'] =
      .ok [⟨.itemText, 0, ['-']⟩, ⟨.itemText, 1, [' ']⟩, ⟨.itemText, 2, ['f']⟩,
        ⟨.itemText, 3, ['o']⟩, ⟨.itemText, 4, ['o']⟩] ∧
    lexStep (⟨['-', ' ', 'f', 'o', 'o'], 0, 0, 1, []⟩ : LS) .list =
      .cont (⟨['-', ' ', 'f', 'o', 'o'], 0, 0, 1, []⟩ : LS) .text ∧
    (lexTokens ['1', '.', ' ', 'o', 'n', 'e']).toItems.all
      (fun it => it.typ != ItemType.itemList) = true := by
  refine ⟨by decide, by decide, by decide⟩

/-- C3 (counterexample): a line of three underscores is not routed to the
horizontal-rule rule at all (lexAny only sends `*`/`-` starts there); it
lexes as a single italic span token, not a horizontal rule. -/
theorem mark_c3_counterexample :
    lexTokens ['_', '_', '_'] = .ok [⟨.itemItalic, 0, ['_', '_', '_']⟩] ∧
    ItemType.itemItalic ≠ ItemType.itemHr := by
  refine ⟨by decide, by decide⟩

/-- C5 (counterexample): the line "##" produces a heading token whose
captured heading text is "#" — the capture can consist of exactly a
trailing run of `#`, so trailing `#` runs are not always excluded. -/
theorem mark_c5_counterexample :
    lexTokens ['#', '#'] = .ok [⟨.itemHeading, 0, ['#', '#']⟩] ∧
    headingFind ['#', '#'] = some (2, ['#']) := by
  refine ⟨by decide, by decide⟩

theorem lexTokens_eq_of_runF {L : List Char} {k : Nat} {res : LexResult}
    (h : runF k (initLS L) .any = some res) (hk : k ≤ lexFuel L) :
    lexTokens L = res := by
  have h2 := runF_mono hk h
  simp [lexTokens, h2]

theorem hrLoop_replicate {c : Char} (hm : isHrMark c = true) (n : Nat) :
    hrLoop (List.replicate n c) = (n, n) := by
  induction n with
  | zero => rfl
  | succ n ih => simp [List.replicate_succ, hrLoop, hm, ih]

theorem hrFind_replicate {c : Char} (hm : isHrMark c = true) {n : Nat}
    (h3 : 3 ≤ n) : hrFind (List.replicate n c) = some n := by
  unfold hrFind
  rw [hrLoop_replicate hm n]
  simp only []
  rw [if_neg (by omega)]
  rw [List.drop_eq_nil_of_le (by simp)]
  simp [countP_nil]

theorem hrLoop_marks : ∀ {s : List Char}, (∀ c ∈ s, isHrMark c = true) →
    hrLoop s = (s.length, s.length) := by
  intro s
  induction s with
  | nil => intro _; rfl
  | cons c rest ih =>
    intro hm
    simp [hrLoop, hm c (by simp), ih (fun c hc => hm c (by simp [hc]))]

theorem hrFind_marks {s : List Char} (hm : ∀ c ∈ s, isHrMark c = true)
    (h3 : 3 ≤ s.length) : hrFind s = some s.length := by
  unfold hrFind
  rw [hrLoop_marks hm]
  simp only []
  rw [if_neg (by omega)]
  rw [List.drop_eq_nil_of_le (by simp)]
  simp [countP_nil]

/-- C3 (amended): a line of three or more repetitions of the same character
`*` or `-` (with no spaces) lexes as a single horizontal-rule token covering
the line; but `lexAny` routes a line to the hr rule only when its first two
characters are each `*` or `-`, so neither the `_` case nor the
space-separated case survives routing: `___` lexes as an italic span, and
`- - -` is routed to the unimplemented list rule and lexes as five
one-character text tokens even though the hr pattern itself matches it
(`hrFind` returns a full match on `- - -`).  The hr pattern, where reached,
accepts any mix of the `-`, `*`, `_` marker characters, not only
repetitions of a single one. -/
theorem mark_c3 :
    (∀ (c : Char) (n : Nat), c = '*' ∨ c = '-' → 3 ≤ n →
      lexTokens (List.replicate n c) =
        .ok [⟨.itemHr, 0, List.replicate n c⟩]) ∧
    (∀ s : List Char, (∀ c ∈ s, isHrMark c = true) → 3 ≤ s.length →
      hrFind s = some s.length) ∧
    hrFind ['-', ' ', '-', ' ', '-'] = some 5 ∧
    lexTokens ['-', ' ', '-', ' ', '-'] =
      .ok [⟨.itemText, 0, ['-']⟩, ⟨.itemText, 1, [' ']⟩,
        ⟨.itemText, 2, ['-']⟩, ⟨.itemText, 3, [' ']⟩,
        ⟨.itemText, 4, ['-']⟩] := by
  refine ⟨?_, fun s hm h3 => hrFind_marks hm h3, by decide, by decide⟩
  intro c n hc h3
  have hm : isHrMark c = true := by
    rcases hc with rfl | rfl <;> decide
  have h0 : (List.replicate n c)[0]? = some c := by
    simp [List.getElem?_replicate]
    omega
  have h1 : (List.replicate n c)[0 + 1]? = some c := by
    simp [List.getElem?_replicate]
    omega
  have hcond1 : (decide (c = '*') || decide (c = '-')) = true := by
    rcases hc with rfl | rfl <;> decide
  have hcond2 : (decide ((List.replicate n c)[0 + 1]? = some '*') ||
      decide ((List.replicate n c)[0 + 1]? = some '-')) = true := by
    rw [h1]
    rcases hc with rfl | rfl <;> decide
  have hstep1 : lexStep (initLS (List.replicate n c)) .any =
      .cont (⟨List.replicate n c, 0, 0, 1, []⟩ : LS) .hr := by
    simp only [initLS, lexStep, h0]
    rw [if_pos hcond1, if_pos hcond2]
    simp [h1]
  have hstep2 : lexStep (⟨List.replicate n c, 0, 0, 1, []⟩ : LS) .hr =
      .cont (emitTok (⟨List.replicate n c, n, 0, 1, []⟩ : LS) .itemHr) .any := by
    have hf : hrFind ((List.replicate n c).drop 0) = some n := by
      simp [hrFind_replicate hm h3]
    simp only [lexStep]
    rw [show (⟨List.replicate n c, 0, 0, 1, []⟩ : LS).input.drop
      (⟨List.replicate n c, 0, 0, 1, []⟩ : LS).pos =
      (List.replicate n c).drop 0 from rfl, hf]
    simp
  have hstep3 : lexStep (emitTok (⟨List.replicate n c, n, 0, 1, []⟩ : LS)
      .itemHr) .any =
      .halt { (emitTok (⟨List.replicate n c, n, 0, 1, []⟩ : LS) .itemHr) with
        width := 0 } := by
    have : (List.replicate n c)[n]? = none := by
      simp [List.getElem?_replicate]
    simp only [lexStep, emitTok]
    rw [show ((⟨List.replicate n c, n, n,
      1, [⟨ItemType.itemHr, 0, ((List.replicate n c).drop 0).take (n - 0)⟩]⟩ :
      LS)).input[n]? = none from this]
  have hrun : runF 3 (initLS (List.replicate n c)) .any =
      some (.ok [⟨.itemHr, 0, List.replicate n c⟩]) := by
    rw [show (3 : Nat) = 2 + 1 from rfl, runF_succ_cont hstep1,
      show (2 : Nat) = 1 + 1 from rfl, runF_succ_cont hstep2,
      runF_succ_halt hstep3]
    all_goals simp [emitTok, List.take_replicate]
  exact lexTokens_eq_of_runF hrun (by simp [lexFuel])

/-- C3 witness: a pure `*` line lexes as one hr token, and the hr pattern
accepts the mixed-marker line `*-_`. -/
theorem mark_c3_witness :
    lexTokens (List.replicate 3 '*') =
      .ok [⟨.itemHr, 0, List.replicate 3 '*'⟩] ∧
    hrFind ['*', '-', '_'] = some (['*', '-', '_'] : List Char).length :=
  ⟨mark_c3.1 '*' 3 (Or.inl rfl) (by decide),
    mark_c3.2.1 ['*', '-', '_'] (by decide) (by decide)⟩

theorem countP_replicate_neg (p : Char → Bool) {c : Char} (h : p c = false)
    (n : Nat) : countP p (List.replicate n c) = 0 := by
  cases n with
  | zero => rfl
  | succ n =>
    rw [List.replicate_succ]
    exact countP_cons_neg p _ h

theorem headTail_spaces_hashes (a b : Nat) :
    headTail (List.replicate a ' ' ++ List.replicate b '#') = some (a + b) := by
  simp only [headTail]
  rw [countP_replicate_append _ a _ (by decide),
    countP_replicate_neg _ (by decide) b]
  rw [show a + 0 = a from rfl, drop_replicate_append,
    countP_replicate _ b (by decide)]
  rw [show (List.replicate b '#').drop b = [] from by simp]
  simp [countP_nil]

theorem headTail_cons_plain {c : Char} (t : List Char) (h1 : c ≠ ' ')
    (h2 : c ≠ '#') (h3 : c ≠ '\n') : headTail (c :: t) = none := by
  simp only [headTail]
  rw [countP_cons_neg _ t (by simp [h1]), List.drop_zero,
    countP_cons_neg _ t (by simp [h2]), List.drop_zero,
    countP_cons_neg _ t (by simp [h1]), List.drop_zero,
    countP_cons_neg _ t (by simp [h3])]
  simp

theorem headCap_plain :
    ∀ (w : List Char), w ≠ [] →
      (∀ c ∈ w, c ≠ '#' ∧ c ≠ ' ' ∧ c ≠ '\n') → ∀ (a b : Nat),
      headCap (w ++ (List.replicate a ' ' ++ List.replicate b '#')) =
        some (w.length + a + b, w) := by
  intro w
  induction w with
  | nil => intro h; exact absurd rfl h
  | cons x w' ih =>
    intro _ hplain a b
    obtain ⟨hx1, hx2, hx3⟩ := hplain x (by simp)
    simp only [List.cons_append, headCap, List.append_eq]
    rw [if_neg hx3]
    cases w' with
    | nil =>
      simp only [List.nil_append]
      rw [headTail_spaces_hashes]
      simp only [Option.some.injEq, Prod.mk.injEq, List.length_cons,
        List.length_nil]
      exact ⟨by omega, by simp⟩
    | cons y w'' =>
      obtain ⟨hy1, hy2, hy3⟩ := hplain y (by simp)
      rw [show ((y :: w'') ++ (List.replicate a ' ' ++ List.replicate b '#')) =
        y :: (w'' ++ (List.replicate a ' ' ++ List.replicate b '#')) from rfl]
      rw [headTail_cons_plain _ hy2 hy1 hy3]
      rw [show (y :: (w'' ++ (List.replicate a ' ' ++ List.replicate b '#'))) =
        ((y :: w'') ++ (List.replicate a ' ' ++ List.replicate b '#')) from rfl]
      rw [ih (by simp) (fun c hc => hplain c (by simp [hc])) a b]
      simp only [Option.some.injEq, Prod.mk.injEq, List.length_cons]
      exact ⟨by omega, by simp⟩

theorem headingFind_shape (k a b : Nat) (w : List Char) (hk1 : 1 ≤ k)
    (hk6 : k ≤ 6) (hw : w ≠ [])
    (hplain : ∀ c ∈ w, c ≠ '#' ∧ c ≠ ' ' ∧ c ≠ '\n') :
    headingFind (List.replicate k '#' ++ ' ' ::
        (w ++ (List.replicate a ' ' ++ List.replicate b '#'))) =
      some ((List.replicate k '#' ++ ' ' ::
        (w ++ (List.replicate a ' ' ++ List.replicate b '#'))).length, w) := by
  obtain ⟨k', rfl⟩ : ∃ k', k = k' + 1 := ⟨k - 1, by omega⟩
  obtain ⟨x, w', rfl⟩ := List.exists_cons_of_ne_nil hw
  obtain ⟨hx1, hx2, hx3⟩ := hplain x (by simp)
  have htail0 : countP (fun c => c = ' ')
      ((x :: w') ++ (List.replicate a ' ' ++ List.replicate b '#')) = 0 := by
    exact countP_cons_neg _ _ (by simp [hx2])
  simp only [headingFind]
  have hn1 : countP (fun c => c = ' ')
      (List.replicate (k' + 1) '#' ++ ' ' ::
        ((x :: w') ++ (List.replicate a ' ' ++ List.replicate b '#'))) = 0 := by
    rw [List.replicate_succ, List.cons_append]
    exact countP_cons_neg _ _ (by decide)
  rw [hn1, List.drop_zero]
  have hh : countP (fun c => c = '#')
      (List.replicate (k' + 1) '#' ++ ' ' ::
        ((x :: w') ++ (List.replicate a ' ' ++ List.replicate b '#'))) =
      k' + 1 := by
    rw [countP_replicate_append _ (k' + 1) _ (by decide),
      countP_cons_neg _ _ (by decide)]
  rw [hh]
  rw [if_neg (by omega)]
  rw [Nat.min_eq_left hk6]
  simp only [headKLoop]
  rw [drop_replicate_append]
  have hsp : countP (fun c => c = ' ')
      (' ' :: ((x :: w') ++ (List.replicate a ' ' ++ List.replicate b '#'))) =
      1 := by
    rw [countP_cons_pos _ _ (by decide), htail0]
  rw [hsp]
  simp only [headSpLoop]
  rw [show ((' ' :: ((x :: w') ++
      (List.replicate a ' ' ++ List.replicate b '#'))).drop (0 + 1)) =
    ((x :: w') ++ (List.replicate a ' ' ++ List.replicate b '#')) from rfl]
  rw [headCap_plain (x :: w') (by simp) hplain a b]
  simp only [Option.some.injEq, Prod.mk.injEq]
  refine ⟨?_, by simp⟩
  simp only [List.length_append, List.length_replicate, List.length_cons]
  omega

theorem countP_all_append (p : Char → Bool) (u rest : List Char)
    (h : ∀ c ∈ u, p c = true) :
    countP p (u ++ rest) = u.length + countP p rest := by
  induction u with
  | nil => simp
  | cons x u' ih =>
    rw [List.cons_append, countP_cons_pos _ _ (h x (by simp)),
      ih (fun c hc => h c (by simp [hc]))]
    simp only [List.length_cons]
    omega

theorem countP_replicate_cons_zero (p : Char → Bool) {c d : Char} (w : Nat)
    (rest : List Char) (hcp : p c = false) (hd : p d = false) :
    countP p (List.replicate w c ++ d :: rest) = 0 := by
  cases w with
  | zero => exact countP_cons_neg _ _ hd
  | succ w' =>
    rw [List.replicate_succ, List.cons_append]
    exact countP_cons_neg _ _ hcp

theorem ne_space_of_not_ws {c : Char} (h : isWsRE c = false) :
    decide (c = ' ') = false := by
  rcases he : decide (c = ' ') with _ | _
  · rfl
  · have hc : c = ' ' := of_decide_eq_true he
    rw [hc] at h
    exact absurd h (by decide)

theorem nl_ne_of_not_ws {c : Char} (h : isWsRE c = false) :
    decide ('\n' = c) = false := by
  rcases he : decide ('\n' = c) with _ | _
  · rfl
  · have hc : '\n' = c := of_decide_eq_true he
    rw [← hc] at h
    exact absurd h (by decide)

theorem gfmTail_close {F : Char} (hFw : isWsRE F = false) {m : Nat}
    (h3 : 3 ≤ m) : gfmTail F ('\n' :: List.replicate m F) = some (1 + m) := by
  simp only [gfmTail]
  rw [countP_cons_pos _ _ (by decide), countP_replicate_neg _ hFw m,
    List.drop_succ_cons, List.drop_zero, countP_replicate _ m (by simp)]
  rw [if_neg (by omega)]
  rw [List.drop_eq_nil_of_le
    (by simp only [List.length_cons, List.length_replicate]; omega)]
  simp [countP_nil]

theorem gfmTail_ws_cons_none {F c : Char} (hc : isWsRE c = true)
    {X : List Char} (h : gfmTail F X = none) :
    gfmTail F (c :: X) = none := by
  simp only [gfmTail] at h ⊢
  rw [countP_cons_pos _ _ hc, List.drop_succ_cons]
  rw [show countP isWsRE X + 1 +
      countP (fun x => x = F) (X.drop (countP isWsRE X)) =
      (countP isWsRE X +
        countP (fun x => x = F) (X.drop (countP isWsRE X))) + 1 from by omega]
  rw [List.drop_succ_cons]
  by_cases h3 : countP (fun x => x = F) (X.drop (countP isWsRE X)) < 3
  · simp [h3]
  · rw [if_neg h3] at h ⊢
    by_cases hn : 0 < countP (fun c => c = '\n')
        (X.drop (countP isWsRE X +
          countP (fun x => x = F) (X.drop (countP isWsRE X))))
    · rw [if_pos hn] at h
      exact absurd h (by simp)
    · rw [if_neg hn] at h ⊢
      by_cases he : X.drop (countP isWsRE X +
          countP (fun x => x = F) (X.drop (countP isWsRE X))) = []
      · rw [if_pos he] at h
        exact absurd h (by simp)
      · rw [if_neg he]

theorem gfmTail_nomem {F : Char} {s : List Char} (h : F ∉ s) :
    gfmTail F s = none := by
  simp only [gfmTail]
  have hg : countP (fun c => c = F) (s.drop (countP isWsRE s)) = 0 := by
    cases hd : s.drop (countP isWsRE s) with
    | nil => rfl
    | cons y t =>
      have hy : y ∈ s := by
        have : y ∈ s.drop (countP isWsRE s) := by rw [hd]; simp
        exact List.mem_of_mem_drop this
      have hyF : y ≠ F := fun he => h (he ▸ hy)
      exact countP_cons_neg _ _ (by simp [hyF])
  rw [hg]
  simp

theorem gfmTail_inside {F : Char} :
    ∀ (u v : List Char), (∃ c ∈ u, isWsRE c = false) → F ∉ u →
      gfmTail F (u ++ v) = none := by
  intro u
  induction u with
  | nil =>
    intro v h _
    obtain ⟨c, hc, _⟩ := h
    cases hc
  | cons x u' ih =>
    intro v hex hF
    by_cases hxw : isWsRE x = true
    · have hFu' : F ∉ u' := fun hm => hF (by simp [hm])
      obtain ⟨c, hc, hcw⟩ := hex
      rcases List.mem_cons.mp hc with rfl | hc'
      · rw [hxw] at hcw; cases hcw
      · rw [List.cons_append]
        exact gfmTail_ws_cons_none hxw (ih v ⟨c, hc', hcw⟩ hFu')
    · have hxF : x ≠ F := fun he => hF (by simp [he])
      have hxw' : isWsRE x = false := by
        rcases hb : isWsRE x with _ | _
        · rfl
        · exact absurd hb hxw
      rw [List.cons_append]
      simp only [gfmTail]
      rw [countP_cons_neg _ _ hxw', List.drop_zero,
        countP_cons_neg _ _ (by simp [hxF])]
      simp

theorem gfmContent_cons (F x : Char) (rest : List Char) :
    gfmContent F (x :: rest) =
      match gfmTail F rest with
      | some t => some (1 + t)
      | none =>
        match gfmContent F rest with
        | some n => some (n + 1)
        | none => none := rfl

theorem gfmContent_nomem {F : Char} : ∀ {s : List Char}, F ∉ s →
    gfmContent F s = none := by
  intro s
  induction s with
  | nil => intro _; rfl
  | cons x t ih =>
    intro h
    have hFt : F ∉ t := fun hm => h (by simp [hm])
    simp only [gfmContent]
    rw [gfmTail_nomem hFt, ih hFt]

theorem gfmContent_shape {F : Char} (hFw : isWsRE F = false) {m : Nat}
    (h3 : 3 ≤ m) :
    ∀ (content : List Char), content ≠ [] → F ∉ content →
      (∀ c ∈ content, content.getLast? = some c → isWsRE c = false) →
      gfmContent F (content ++ '\n' :: List.replicate m F) =
        some (content.length + (1 + m)) := by
  intro content
  induction content with
  | nil => intro h _ _; exact absurd rfl h
  | cons x u ih =>
    intro _ hF hlast
    cases u with
    | nil =>
      rw [show ((x :: ([] : List Char)) ++ '\n' :: List.replicate m F) =
        x :: ('\n' :: List.replicate m F) from rfl]
      simp only [gfmContent]
      rw [gfmTail_close hFw h3]
      exact congrArg some (by simp)
    | cons y u' =>
      have hFyu : F ∉ (y :: u') := fun hm => hF (by simp [hm])
      have hne : (y :: u') ≠ [] := by simp
      have hlast' : ∀ c ∈ (y :: u'), (y :: u').getLast? = some c →
          isWsRE c = false := by
        intro c hcmem hcl
        exact hlast c (List.mem_cons_of_mem x hcmem)
          (by rw [List.getLast?_cons_cons]; exact hcl)
      obtain ⟨cl, hcl⟩ :=
        Option.isSome_iff_exists.mp (List.getLast?_isSome.mpr hne)
      have hclmem : cl ∈ (y :: u') := List.mem_of_mem_getLast? hcl
      have hclw : isWsRE cl = false := hlast' cl hclmem hcl
      rw [show ((x :: y :: u') ++ '\n' :: List.replicate m F) =
        x :: ((y :: u') ++ '\n' :: List.replicate m F) from rfl]
      rw [gfmContent_cons]
      rw [gfmTail_inside (y :: u') ('\n' :: List.replicate m F)
        ⟨cl, hclmem, hclw⟩ hFyu]
      rw [ih hne hFyu hlast']
      rw [show (x :: y :: u').length = (y :: u').length + 1 from by simp]
      exact congrArg some (by omega)

theorem gfmHead_shape {F : Char} (hFw : isWsRE F = false) {m : Nat}
    (h3 : 3 ≤ m) (tag content : List Char) (htag : tag ≠ [])
    (htagw : ∀ c ∈ tag, isWsRE c = false)
    (hcne : content ≠ []) (hcF : F ∉ content)
    (hclast : ∀ c ∈ content, content.getLast? = some c → isWsRE c = false) :
    gfmHead F (tag ++ '\n' :: (content ++ '\n' :: List.replicate m F)) =
      some (tag.length + 1 + (content.length + (1 + m)), some tag) := by
  obtain ⟨t0, tag', rfl⟩ := List.exists_cons_of_ne_nil htag
  have ht0 := htagw t0 (by simp)
  simp only [gfmHead]
  have hsp1 : countP (fun c => c = ' ')
      ((t0 :: tag') ++ '\n' :: (content ++ '\n' :: List.replicate m F)) = 0 := by
    rw [List.cons_append]
    exact countP_cons_neg _ _ (ne_space_of_not_ws ht0)
  rw [hsp1, List.drop_zero]
  have hwlen : countP (fun c => !(isWsRE c))
      ((t0 :: tag') ++ '\n' :: (content ++ '\n' :: List.replicate m F)) =
      (t0 :: tag').length := by
    rw [countP_all_append _ _ _ (fun c hc => by rw [htagw c hc]; rfl),
      countP_cons_neg _ _ (by decide)]
    omega
  rw [hwlen, List.take_left, Nat.zero_add, List.drop_left]
  have hsp2 : countP (fun c => c = ' ')
      ('\n' :: (content ++ '\n' :: List.replicate m F)) = 0 :=
    countP_cons_neg _ _ (by decide)
  rw [hsp2, Nat.add_zero, List.drop_left]
  rw [List.drop_append 1, List.drop_succ_cons, List.drop_zero]
  rw [gfmContent_shape hFw h3 content hcne hcF hclast]
  simp

theorem gfmHead_none_nomem {F : Char} (hFw : isWsRE F = false)
    (rest : List Char) (hrest : F ∉ rest) (w : Nat) :
    gfmHead F (List.replicate w F ++ '\n' :: rest) = none := by
  simp only [gfmHead]
  have hsp1 : countP (fun c => c = ' ')
      (List.replicate w F ++ '\n' :: rest) = 0 :=
    countP_replicate_cons_zero _ w rest (ne_space_of_not_ws hFw) (by decide)
  rw [hsp1, List.drop_zero]
  have hwlen : countP (fun c => !(isWsRE c))
      (List.replicate w F ++ '\n' :: rest) = w := by
    rw [countP_replicate_append _ w _ (by rw [hFw]; rfl),
      countP_cons_neg _ _ (by decide)]
    omega
  rw [hwlen, Nat.zero_add, drop_replicate_append]
  have hsp2 : countP (fun c => c = ' ') ('\n' :: rest) = 0 :=
    countP_cons_neg _ _ (by decide)
  rw [hsp2, Nat.add_zero, drop_replicate_append]
  have hd1 : (List.replicate w F ++ '\n' :: rest).drop (w + 1) = rest := by
    rw [show w + 1 = (List.replicate w F).length + 1 from by simp,
      List.drop_append 1]
    rfl
  rw [hd1, gfmContent_nomem hrest]
  simp

theorem gfmOpenLoop_none {F : Char} (hFw : isWsRE F = false) {j : Nat}
    (rest : List Char) (hrest : F ∉ rest) :
    ∀ l, l ≤ j →
      gfmOpenLoop F (List.replicate j F ++ '\n' :: rest) l = none := by
  intro l
  induction l with
  | zero => intro _; rfl
  | succ l' ih =>
    intro hle
    simp only [gfmOpenLoop]
    by_cases h3 : l' + 1 < 3
    · rw [if_pos h3]
    · rw [if_neg h3]
      have hdrop : (List.replicate j F ++ '\n' :: rest).drop (l' + 1) =
          List.replicate (j - (l' + 1)) F ++ '\n' :: rest := by
        rw [show (List.replicate j F : List Char) =
            List.replicate (l' + 1) F ++ List.replicate (j - (l' + 1)) F from by
          rw [← List.replicate_add]
          congr 1
          omega]
        rw [List.append_assoc, drop_replicate_append]
      rw [hdrop, gfmHead_none_nomem hFw rest hrest]
      exact ih (by omega)

theorem gfmFind_none_nomem {F : Char} (hFw : isWsRE F = false) (j : Nat)
    (rest : List Char) (hrest : F ∉ rest) :
    gfmFind F (List.replicate j F ++ '\n' :: rest) = none := by
  unfold gfmFind
  rw [countP_run_stop _ j _ (by simp) (nl_ne_of_not_ws hFw)]
  exact gfmOpenLoop_none hFw rest hrest j (le_refl j)

theorem gfmFind_none_zero {G : Char} {s : List Char}
    (h : countP (fun c => c = G) s = 0) : gfmFind G s = none := by
  unfold gfmFind
  rw [h]
  rfl

theorem gfmFind_shape {F : Char} (hFw : isWsRE F = false) {n m : Nat}
    (hn : 3 ≤ n) (hm : 3 ≤ m) (tag content : List Char) (htag : tag ≠ [])
    (htagw : ∀ c ∈ tag, isWsRE c = false) (htagF : ∀ c ∈ tag, c ≠ F)
    (hcne : content ≠ []) (hcF : F ∉ content)
    (hclast : ∀ c ∈ content, content.getLast? = some c → isWsRE c = false) :
    gfmFind F (List.replicate n F ++
        (tag ++ '\n' :: (content ++ '\n' :: List.replicate m F))) =
      some (n + (tag.length + 1 + (content.length + (1 + m))), some tag) := by
  have hh := gfmHead_shape hFw hm tag content htag htagw hcne hcF hclast
  obtain ⟨t0, tag', htageq⟩ := List.exists_cons_of_ne_nil htag
  have hcount : countP (fun c => c = F) (List.replicate n F ++
      (tag ++ '\n' :: (content ++ '\n' :: List.replicate m F))) = n := by
    rw [htageq, List.cons_append]
    refine countP_run_stop _ n _ (by simp) ?_
    exact decide_eq_false (htagF t0 (by rw [htageq]; simp))
  unfold gfmFind
  rw [hcount]
  obtain ⟨n', rfl⟩ : ∃ n', n = n' + 1 := ⟨n - 1, by omega⟩
  simp only [gfmOpenLoop]
  rw [if_neg (by omega), drop_replicate_append, hh]

theorem getElem?_zero_replicate_append {c : Char} {p : Nat} (h : 1 ≤ p)
    (rest : List Char) : (List.replicate p c ++ rest)[0]? = some c := by
  obtain ⟨p', rfl⟩ : ∃ p', p = p' + 1 := ⟨p - 1, by omega⟩
  rw [List.replicate_succ, List.cons_append]
  simp

theorem drop_one_replicate_append {c : Char} {p : Nat} (h : 1 ≤ p)
    (rest : List Char) :
    (List.replicate p c ++ rest).drop 1 = List.replicate (p - 1) c ++ rest := by
  obtain ⟨p', rfl⟩ : ∃ p', p = p' + 1 := ⟨p - 1, by omega⟩
  rw [List.replicate_succ, List.cons_append]
  simp

theorem take_two_replicate {c : Char} {p : Nat} (h : 2 ≤ p)
    (rest : List Char) : (List.replicate p c ++ rest).take 2 = [c, c] := by
  obtain ⟨p', rfl⟩ : ∃ p', p = p' + 2 := ⟨p - 2, by omega⟩
  rw [show p' + 2 = 2 + p' from by omega, List.replicate_add,
    List.append_assoc, take_replicate_append]
  rfl

/-- C6: a fenced code block whose opening fence, language tag, content and
closing fence all use the same fence character `F` (backtick or tilde), with
both fences at least 3 characters long, matches `block[itemGfmCodeBlock]`
covering the whole input and captures the first word after the opening fence
as the language tag, and the lexer emits it as a single gfm-code-block
token; a backtick-opened fence is never closed by a tilde run, nor a
tilde-opened fence by a backtick run (the match fails outright in both
cross-character cases). -/
theorem mark_c6 (F : Char) (n m : Nat) (tag content : List Char)
    (hF : F = bt ∨ F = '~') (hn : 3 ≤ n) (hm : 3 ≤ m)
    (htag : tag ≠ []) (htagw : ∀ c ∈ tag, isWsRE c = false ∧ c ≠ F)
    (hcne : content ≠ []) (hcF : F ∉ content)
    (hclast : ∀ c ∈ content, content.getLast? = some c → isWsRE c = false) :
    (gfmCodeFind (List.replicate n F ++
          (tag ++ '\n' :: (content ++ '\n' :: List.replicate m F))) =
        some ((List.replicate n F ++
          (tag ++ '\n' :: (content ++ '\n' :: List.replicate m F))).length,
          some tag) ∧
      lexTokens (List.replicate n F ++
          (tag ++ '\n' :: (content ++ '\n' :: List.replicate m F))) =
        .ok [⟨.itemGfmCodeBlock, 0, List.replicate n F ++
          (tag ++ '\n' :: (content ++ '\n' :: List.replicate m F))⟩]) ∧
    (∀ (j k : Nat) (other : List Char), 3 ≤ j → bt ∉ other →
      gfmCodeFind (List.replicate j bt ++
        '\n' :: (other ++ '\n' :: List.replicate k '~')) = none) ∧
    (∀ (j k : Nat) (other : List Char), 3 ≤ j → '~' ∉ other →
      gfmCodeFind (List.replicate j '~' ++
        '\n' :: (other ++ '\n' :: List.replicate k bt)) = none) := by
  have hFw : isWsRE F = false := by rcases hF with rfl | rfl <;> decide
  have htagw' : ∀ c ∈ tag, isWsRE c = false := fun c hc => (htagw c hc).1
  have htagF' : ∀ c ∈ tag, c ≠ F := fun c hc => (htagw c hc).2
  refine ⟨?_, ?_, ?_⟩
  · set R : List Char := tag ++ '\n' :: (content ++ '\n' :: List.replicate m F)
      with hR
    set S : List Char := List.replicate n F ++ R with hS
    have hfshape := gfmFind_shape hFw hn hm tag content htag htagw' htagF'
      hcne hcF hclast
    rw [← hR, ← hS] at hfshape
    have hlenS : S.length = n + (tag.length + 1 + (content.length + (1 + m))) := by
      rw [hS, hR]
      simp only [List.length_append, List.length_replicate, List.length_cons]
      omega
    have hfind0 : gfmCodeFind S = some (S.length, some tag) := by
      unfold gfmCodeFind
      rcases hF with rfl | rfl
      · rw [hfshape, hlenS]
        simp
      · have hzero : countP (fun c => c = bt) S = 0 := by
          rw [hS]
          obtain ⟨n1, rfl⟩ : ∃ n1, n = n1 + 1 := ⟨n - 1, by omega⟩
          rw [List.replicate_succ, List.cons_append]
          exact countP_cons_neg _ _ (by decide)
        rw [gfmFind_none_zero hzero, hfshape, hlenS]
        simp
    refine ⟨hfind0, ?_⟩
    have h0 : S[0]? = some F := by
      rw [hS]
      exact getElem?_zero_replicate_append (by omega) R
    have hc2 : (S.drop (0 + 1)).take 2 = [F, F] := by
      rw [hS, show (0 + 1 : Nat) = 1 from rfl,
        drop_one_replicate_append (by omega) R]
      exact take_two_replicate (by omega) R
    have hstep1 : lexStep (initLS S) .any =
        .cont (⟨S, 0, 0, 1, []⟩ : LS) .gfmCode := by
      simp only [initLS, lexStep, h0]
      rw [if_neg (by rcases hF with rfl | rfl <;> decide)]
      rw [if_neg (by rcases hF with rfl | rfl <;> decide)]
      rw [if_neg (by
        have hsp : decide (F = ' ') = false := by
          rcases hF with rfl | rfl <;> decide
        rw [hsp]
        simp)]
      rw [if_pos (by rcases hF with rfl | rfl <;> decide)]
      rw [if_neg (by omega)]
      simp only [hc2]
      rw [if_pos (by rcases hF with rfl | rfl <;> decide)]
    have hf : gfmCodeFind ((⟨S, 0, 0, 1, []⟩ : LS).input.drop
        (⟨S, 0, 0, 1, []⟩ : LS).pos) = some (S.length, some tag) := by
      rw [show ((⟨S, 0, 0, 1, []⟩ : LS).input.drop
        (⟨S, 0, 0, 1, []⟩ : LS).pos) = S from by simp]
      exact hfind0
    have hstep2 : lexStep (⟨S, 0, 0, 1, []⟩ : LS) .gfmCode =
        .cont (emitTok (⟨S, S.length, 0, 1, []⟩ : LS) .itemGfmCodeBlock)
          .any := by
      simp only [lexStep]
      rw [hf]
      simp
    have hstep3 : lexStep (emitTok (⟨S, S.length, 0, 1, []⟩ : LS)
        .itemGfmCodeBlock) .any =
        .halt { (emitTok (⟨S, S.length, 0, 1, []⟩ : LS) .itemGfmCodeBlock)
          with width := 0 } := by
      have hnone : S[S.length]? = none := List.getElem?_eq_none le_rfl
      simp only [lexStep, emitTok]
      rw [show ((⟨S, S.length, S.length, 1,
        [⟨ItemType.itemGfmCodeBlock, 0, (S.drop 0).take (S.length - 0)⟩]⟩ :
        LS)).input[S.length]? = none from hnone]
    have hrun : runF 3 (initLS S) .any =
        some (.ok [⟨.itemGfmCodeBlock, 0, S⟩]) := by
      rw [show (3 : Nat) = 2 + 1 from rfl, runF_succ_cont hstep1,
        show (2 : Nat) = 1 + 1 from rfl, runF_succ_cont hstep2,
        runF_succ_halt hstep3]
      all_goals simp [emitTok]
    exact lexTokens_eq_of_runF hrun (by simp [lexFuel])
  · intro j k other hj hmem
    have hbt_rest : bt ∉ (other ++ '\n' :: List.replicate k '~') := by
      intro hin
      rcases List.mem_append.mp hin with h1 | h2
      · exact hmem h1
      · rcases List.mem_cons.mp h2 with he | h3
        · exact absurd he (by decide)
        · exact absurd (List.eq_of_mem_replicate h3) (by decide)
    have h1 : gfmFind bt (List.replicate j bt ++
        '\n' :: (other ++ '\n' :: List.replicate k '~')) = none :=
      gfmFind_none_nomem (by decide) j _ hbt_rest
    have h2 : gfmFind '~' (List.replicate j bt ++
        '\n' :: (other ++ '\n' :: List.replicate k '~')) = none := by
      apply gfmFind_none_zero
      obtain ⟨j', rfl⟩ : ∃ j', j = j' + 1 := ⟨j - 1, by omega⟩
      rw [List.replicate_succ, List.cons_append]
      exact countP_cons_neg _ _ (by decide)
    unfold gfmCodeFind
    rw [h1, h2]
    rfl
  · intro j k other hj hmem
    have htl_rest : '~' ∉ (other ++ '\n' :: List.replicate k bt) := by
      intro hin
      rcases List.mem_append.mp hin with h1 | h2
      · exact hmem h1
      · rcases List.mem_cons.mp h2 with he | h3
        · exact absurd he (by decide)
        · exact absurd (List.eq_of_mem_replicate h3) (by decide)
    have h1 : gfmFind bt (List.replicate j '~' ++
        '\n' :: (other ++ '\n' :: List.replicate k bt)) = none := by
      apply gfmFind_none_zero
      obtain ⟨j', rfl⟩ : ∃ j', j = j' + 1 := ⟨j - 1, by omega⟩
      rw [List.replicate_succ, List.cons_append]
      exact countP_cons_neg _ _ (by decide)
    have h2 : gfmFind '~' (List.replicate j '~' ++
        '\n' :: (other ++ '\n' :: List.replicate k bt)) = none :=
      gfmFind_none_nomem (by decide) j _ htl_rest
    unfold gfmCodeFind
    rw [h1, h2]
    rfl

/-- C6 witness: the 10-character fenced block of 3 backticks, tag `g`,
content `x` and 3 closing backticks matches with capture `g` and lexes as
one gfm-code-block token; a 3-backtick fence with a 4-tilde closing line
does not match at all. -/
theorem mark_c6_witness :
    gfmCodeFind (List.replicate 3 bt ++
        (['g'] ++ '\n' :: (['x'] ++ '\n' :: List.replicate 3 bt))) =
      some (10, some ['g']) ∧
    lexTokens (List.replicate 3 bt ++
        (['g'] ++ '\n' :: (['x'] ++ '\n' :: List.replicate 3 bt))) =
      .ok [⟨.itemGfmCodeBlock, 0, List.replicate 3 bt ++
        (['g'] ++ '\n' :: (['x'] ++ '\n' :: List.replicate 3 bt))⟩] ∧
    gfmCodeFind (List.replicate 3 bt ++
      '\n' :: (['x'] ++ '\n' :: List.replicate 4 '~')) = none := by
  obtain ⟨⟨h1, h2⟩, h3, _⟩ := mark_c6 bt 3 3 ['g'] ['x'] (Or.inl rfl)
    (by decide) (by decide) (by decide) (by decide) (by decide) (by decide)
    (by decide)
  exact ⟨by rw [h1]; rfl, h2, h3 3 4 ['x'] (by decide) (by decide)⟩

theorem countP_take_all (p : Char → Bool) :
    ∀ (s : List Char), ∀ c ∈ s.take (countP p s), p c = true := by
  intro s
  induction s with
  | nil => intro c hc; simp at hc
  | cons x rest ih =>
    intro c hc
    by_cases hx : p x = true
    · rw [countP_cons_pos _ _ hx, List.take_succ_cons] at hc
      rcases List.mem_cons.mp hc with rfl | hc'
      · exact hx
      · exact ih c hc'
    · rw [countP_cons_neg _ _ (by simpa using hx), List.take_zero] at hc
      simp at hc

theorem headTail_none (X : List Char) (hnl : '\n' ∉ X)
    (hex : ∃ c ∈ X, c ≠ ' ' ∧ c ≠ '#') : headTail X = none := by
  simp only [headTail]
  set a := countP (fun c => c = ' ') X with ha
  set Y := X.drop a with hY
  set b := countP (fun c => c = '#') Y with hb
  set Z := Y.drop b with hZ
  set c := countP (fun x => x = ' ') Z with hc
  set W := Z.drop c with hW
  have hWX : ∀ x ∈ W, x ∈ X := by
    intro x hx
    rw [hW] at hx
    have h1 : x ∈ Z := List.mem_of_mem_drop hx
    rw [hZ] at h1
    have h2 : x ∈ Y := List.mem_of_mem_drop h1
    rw [hY] at h2
    exact List.mem_of_mem_drop h2
  have hWne : W ≠ [] := by
    intro hemp
    obtain ⟨c0, hc0X, hc0sp, hc0h⟩ := hex
    have hsplit1 : c0 ∈ X.take a ∨ c0 ∈ Y := by
      rw [hY]
      rw [← List.take_append_drop a X] at hc0X
      exact List.mem_append.mp hc0X
    rcases hsplit1 with h1 | h1
    · have := countP_take_all (fun c => c = ' ') X c0 (by rw [ha] at h1; exact h1)
      exact hc0sp (by simpa using this)
    · have hsplit2 : c0 ∈ Y.take b ∨ c0 ∈ Z := by
        rw [hZ]
        rw [← List.take_append_drop b Y] at h1
        exact List.mem_append.mp h1
      rcases hsplit2 with h2 | h2
      · have := countP_take_all (fun c => c = '#') Y c0 (by rw [hb] at h2; exact h2)
        exact hc0h (by simpa using this)
      · have hsplit3 : c0 ∈ Z.take c ∨ c0 ∈ W := by
          rw [hW]
          rw [← List.take_append_drop c Z] at h2
          exact List.mem_append.mp h2
        rcases hsplit3 with h3 | h3
        · have := countP_take_all (fun x => x = ' ') Z c0 (by rw [hc] at h3; exact h3)
          exact hc0sp (by simpa using this)
        · rw [hemp] at h3
          simp at h3
  obtain ⟨w0, W', hW0⟩ := List.exists_cons_of_ne_nil hWne
  have hw0nl : w0 ≠ '\n' := by
    intro he
    exact hnl (he ▸ hWX w0 (by rw [hW0]; simp))
  have hd : countP (fun x => x = '\n') W = 0 := by
    rw [hW0]
    exact countP_cons_neg _ _ (by simp [hw0nl])
  rw [hd]
  rw [if_neg (by omega), if_neg hWne]

theorem headCap_cons (x : Char) (rest : List Char) :
    headCap (x :: rest) =
      if x = '\n' then none
      else
        match headTail rest with
        | some t => some (t + 1, [x])
        | none =>
          match headCap rest with
          | some (n, cap) => some (n + 1, x :: cap)
          | none => none := rfl

theorem headCap_gen :
    ∀ (w : List Char) (a b : Nat), w ≠ [] → '\n' ∉ w →
      (∀ ℓ ∈ w, w.getLast? = some ℓ → ℓ ≠ ' ' ∧ ℓ ≠ '#') →
      headCap (w ++ (List.replicate a ' ' ++ List.replicate b '#')) =
        some (w.length + a + b, w) := by
  intro w
  induction w with
  | nil => intro a b h _ _; exact absurd rfl h
  | cons x w' ih =>
    intro a b _ hnl hlast
    have hxnl : x ≠ '\n' := fun he => hnl (by simp [he])
    cases w' with
    | nil =>
      rw [show ((x :: ([] : List Char)) ++
          (List.replicate a ' ' ++ List.replicate b '#')) =
        x :: (List.replicate a ' ' ++ List.replicate b '#') from rfl]
      rw [headCap_cons, if_neg hxnl, headTail_spaces_hashes a b]
      simp only [Option.some.injEq, Prod.mk.injEq, List.length_cons,
        List.length_nil]
      exact ⟨by omega, trivial⟩
    | cons y w'' =>
      have hnl' : '\n' ∉ (y :: w'') := fun hm => hnl (by simp [hm])
      have hlast' : ∀ ℓ ∈ (y :: w''), (y :: w'').getLast? = some ℓ →
          ℓ ≠ ' ' ∧ ℓ ≠ '#' := by
        intro ℓ hm hℓ
        exact hlast ℓ (List.mem_cons_of_mem x hm)
          (by rw [List.getLast?_cons_cons]; exact hℓ)
      obtain ⟨ℓ, hℓ⟩ := Option.isSome_iff_exists.mp
        (List.getLast?_isSome.mpr (by simp : (y :: w'') ≠ []))
      have hℓmem : ℓ ∈ (y :: w'') := List.mem_of_mem_getLast? hℓ
      obtain ⟨hℓsp, hℓh⟩ := hlast' ℓ hℓmem hℓ
      have htail : headTail ((y :: w'') ++
          (List.replicate a ' ' ++ List.replicate b '#')) = none := by
        apply headTail_none
        · intro hm
          rcases List.mem_append.mp hm with h1 | h2
          · exact hnl' h1
          · rcases List.mem_append.mp h2 with h3 | h4
            · exact absurd (List.eq_of_mem_replicate h3) (by decide)
            · exact absurd (List.eq_of_mem_replicate h4) (by decide)
        · exact ⟨ℓ, List.mem_append_left _ hℓmem, hℓsp, hℓh⟩
      rw [show ((x :: y :: w'') ++
          (List.replicate a ' ' ++ List.replicate b '#')) =
        x :: ((y :: w'') ++ (List.replicate a ' ' ++ List.replicate b '#'))
        from rfl]
      rw [headCap_cons, if_neg hxnl, htail, ih a b (by simp) hnl' hlast']
      show some ((y :: w'').length + a + b + 1, x :: y :: w'') =
        some ((x :: y :: w'').length + a + b, x :: y :: w'')
      simp only [Option.some.injEq, Prod.mk.injEq, List.length_cons]
      exact ⟨by omega, trivial⟩

theorem headingFind_shape_gen (k a b : Nat) (w : List Char) (hk1 : 1 ≤ k)
    (hk6 : k ≤ 6) (hw : w ≠ []) (hnl : '\n' ∉ w)
    (hhead : ∀ w0 ∈ w, w.head? = some w0 → w0 ≠ ' ')
    (hlast : ∀ ℓ ∈ w, w.getLast? = some ℓ → ℓ ≠ ' ' ∧ ℓ ≠ '#') :
    headingFind (List.replicate k '#' ++ ' ' ::
        (w ++ (List.replicate a ' ' ++ List.replicate b '#'))) =
      some ((List.replicate k '#' ++ ' ' ::
        (w ++ (List.replicate a ' ' ++ List.replicate b '#'))).length, w) := by
  obtain ⟨k', rfl⟩ : ∃ k', k = k' + 1 := ⟨k - 1, by omega⟩
  obtain ⟨x, w', rfl⟩ := List.exists_cons_of_ne_nil hw
  have hx_sp : x ≠ ' ' := hhead x (by simp) rfl
  have htail0 : countP (fun c => c = ' ')
      ((x :: w') ++ (List.replicate a ' ' ++ List.replicate b '#')) = 0 :=
    countP_cons_neg _ _ (by simp [hx_sp])
  simp only [headingFind]
  have hn1 : countP (fun c => c = ' ')
      (List.replicate (k' + 1) '#' ++ ' ' ::
        ((x :: w') ++ (List.replicate a ' ' ++ List.replicate b '#'))) = 0 := by
    rw [List.replicate_succ, List.cons_append]
    exact countP_cons_neg _ _ (by decide)
  rw [hn1, List.drop_zero]
  have hh : countP (fun c => c = '#')
      (List.replicate (k' + 1) '#' ++ ' ' ::
        ((x :: w') ++ (List.replicate a ' ' ++ List.replicate b '#'))) =
      k' + 1 := by
    rw [countP_replicate_append _ (k' + 1) _ (by decide),
      countP_cons_neg _ _ (by decide)]
  rw [hh, if_neg (by omega), Nat.min_eq_left hk6]
  simp only [headKLoop]
  rw [drop_replicate_append]
  have hsp : countP (fun c => c = ' ')
      (' ' :: ((x :: w') ++ (List.replicate a ' ' ++ List.replicate b '#'))) =
      1 := by
    rw [countP_cons_pos _ _ (by decide), htail0]
  rw [hsp]
  simp only [headSpLoop]
  rw [show ((' ' :: ((x :: w') ++
      (List.replicate a ' ' ++ List.replicate b '#'))).drop (0 + 1)) =
    ((x :: w') ++ (List.replicate a ' ' ++ List.replicate b '#')) from rfl]
  rw [headCap_gen (x :: w') a b (by simp) hnl hlast]
  simp only [Option.some.injEq, Prod.mk.injEq]
  refine ⟨?_, by simp⟩
  simp only [List.length_append, List.length_replicate, List.length_cons]
  omega

theorem headingFind_shape_seven (j a b : Nat) (w : List Char) (hj : 7 ≤ j)
    (hw : w ≠ []) (hnl : '\n' ∉ w)
    (hlast : ∀ ℓ ∈ w, w.getLast? = some ℓ → ℓ ≠ ' ' ∧ ℓ ≠ '#') :
    headingFind (List.replicate j '#' ++ ' ' ::
        (w ++ (List.replicate a ' ' ++ List.replicate b '#'))) =
      some ((List.replicate j '#' ++ ' ' ::
        (w ++ (List.replicate a ' ' ++ List.replicate b '#'))).length,
        List.replicate (j - 6) '#' ++ ' ' :: w) := by
  simp only [headingFind]
  have hn1 : countP (fun c => c = ' ')
      (List.replicate j '#' ++ ' ' ::
        (w ++ (List.replicate a ' ' ++ List.replicate b '#'))) = 0 := by
    obtain ⟨t, rfl⟩ : ∃ t, j = t + 1 := ⟨j - 1, by omega⟩
    rw [List.replicate_succ, List.cons_append]
    exact countP_cons_neg _ _ (by decide)
  rw [hn1, List.drop_zero]
  have hh : countP (fun c => c = '#')
      (List.replicate j '#' ++ ' ' ::
        (w ++ (List.replicate a ' ' ++ List.replicate b '#'))) = j :=
    countP_run_stop _ j _ (by simp) (by decide)
  rw [hh, if_neg (by omega), Nat.min_eq_right (by omega)]
  rw [show (6 : Nat) = 5 + 1 from rfl]
  simp only [headKLoop]
  rw [show (5 + 1 : Nat) = 6 from rfl]
  have hdrop : (List.replicate j '#' ++ ' ' ::
      (w ++ (List.replicate a ' ' ++ List.replicate b '#'))).drop 6 =
      List.replicate (j - 6) '#' ++ ' ' ::
        (w ++ (List.replicate a ' ' ++ List.replicate b '#')) := by
    rw [show (List.replicate j '#' : List Char) =
        List.replicate 6 '#' ++ List.replicate (j - 6) '#' from by
      rw [← List.replicate_add]
      congr 1
      omega]
    rw [List.append_assoc, drop_replicate_append]
  rw [hdrop]
  have hsp : countP (fun c => c = ' ')
      (List.replicate (j - 6) '#' ++ ' ' ::
        (w ++ (List.replicate a ' ' ++ List.replicate b '#'))) = 0 := by
    obtain ⟨t, ht⟩ : ∃ t, j - 6 = t + 1 := ⟨j - 7, by omega⟩
    rw [ht, List.replicate_succ, List.cons_append]
    exact countP_cons_neg _ _ (by decide)
  rw [hsp]
  simp only [headSpLoop]
  have hre : (List.replicate (j - 6) '#' ++ ' ' ::
      (w ++ (List.replicate a ' ' ++ List.replicate b '#'))) =
      ((List.replicate (j - 6) '#' ++ ' ' :: w) ++
        (List.replicate a ' ' ++ List.replicate b '#')) := by
    simp [List.append_assoc]
  rw [hre]
  have hW2ne : (List.replicate (j - 6) '#' ++ ' ' :: w) ≠ [] := by simp
  have hW2nl : '\n' ∉ (List.replicate (j - 6) '#' ++ ' ' :: w) := by
    intro hm
    rcases List.mem_append.mp hm with h1 | h2
    · exact absurd (List.eq_of_mem_replicate h1) (by decide)
    · rcases List.mem_cons.mp h2 with he | h3
      · exact absurd he (by decide)
      · exact hnl h3
  have hW2last : ∀ ℓ ∈ (List.replicate (j - 6) '#' ++ ' ' :: w),
      (List.replicate (j - 6) '#' ++ ' ' :: w).getLast? = some ℓ →
      ℓ ≠ ' ' ∧ ℓ ≠ '#' := by
    intro ℓ _ hℓ
    rw [List.getLast?_append_of_ne_nil _ (by simp : (' ' :: w) ≠ [])] at hℓ
    obtain ⟨w0, w'', rfl⟩ := List.exists_cons_of_ne_nil hw
    rw [List.getLast?_cons_cons] at hℓ
    exact hlast ℓ (List.mem_of_mem_getLast? hℓ) hℓ
  rw [headCap_gen (List.replicate (j - 6) '#' ++ ' ' :: w) a b hW2ne hW2nl
    hW2last]
  simp only [Option.some.injEq, Prod.mk.injEq]
  refine ⟨?_, trivial⟩
  simp only [List.length_append, List.length_replicate, List.length_cons]
  omega

theorem lexTokens_heading_line {S cap : List Char} (h0 : S[0]? = some '#')
    (hfind : headingFind S = some (S.length, cap)) :
    lexTokens S = .ok [⟨.itemHeading, 0, S⟩] := by
  have hstep1 : lexStep (initLS S) .any = .cont (⟨S, 0, 0, 1, []⟩ : LS)
      .heading := by
    simp [initLS, lexStep, h0]
  have hstep2 : lexStep (⟨S, 0, 0, 1, []⟩ : LS) .heading =
      .cont (emitTok (⟨S, S.length, 0, 1, []⟩ : LS) .itemHeading) .any := by
    have hf : headingFind ((⟨S, 0, 0, 1, []⟩ : LS).input.drop
        (⟨S, 0, 0, 1, []⟩ : LS).pos) = some (S.length, cap) := by
      rw [show ((⟨S, 0, 0, 1, []⟩ : LS).input.drop
        (⟨S, 0, 0, 1, []⟩ : LS).pos) = S from by simp]
      exact hfind
    simp only [lexStep]
    rw [hf]
    simp
  have hstep3 : lexStep (emitTok (⟨S, S.length, 0, 1, []⟩ : LS) .itemHeading)
      .any =
      .halt { (emitTok (⟨S, S.length, 0, 1, []⟩ : LS) .itemHeading) with
        width := 0 } := by
    have hnone : S[S.length]? = none := List.getElem?_eq_none le_rfl
    simp only [lexStep, emitTok]
    rw [show ((⟨S, S.length, S.length, 1,
      [⟨ItemType.itemHeading, 0, (S.drop 0).take (S.length - 0)⟩]⟩ :
      LS)).input[S.length]? = none from hnone]
  have hrun : runF 3 (initLS S) .any =
      some (.ok [⟨.itemHeading, 0, S⟩]) := by
    rw [show (3 : Nat) = 2 + 1 from rfl, runF_succ_cont hstep1,
      show (2 : Nat) = 1 + 1 from rfl, runF_succ_cont hstep2,
      runF_succ_halt hstep3]
    all_goals simp [emitTok]
  exact lexTokens_eq_of_runF hrun (by simp [lexFuel])

/-- C5 (amended): a line of 1–6 `#`, a space, heading text (which may
contain interior spaces and `#`s, as in `# foo bar`, but no newline, must
not start with a space, and must end in an ordinary character — neither
`#` nor space), optional trailing spaces and an optional trailing `#` run
lexes as a single heading token covering the line, and the captured text is
exactly the heading text with the trailing spaces and `#` run stripped.
The stripping is not unconditional: in degenerate lines whose remaining
text consists only of `#`s and spaces (e.g. `##`), the captured text itself
can be a `#` or a space.  A line with 7 or more leading `#` is indeed not a
heading with that full prefix: only 6 `#` are taken as the prefix, the
remaining `#`s and the separator become part of the captured heading text,
and the line still lexes as one heading token. -/
theorem mark_c5 :
    (∀ (k a b : Nat) (w : List Char), 1 ≤ k → k ≤ 6 → w ≠ [] → '\n' ∉ w →
      (∀ w0 ∈ w, w.head? = some w0 → w0 ≠ ' ') →
      (∀ ℓ ∈ w, w.getLast? = some ℓ → ℓ ≠ ' ' ∧ ℓ ≠ '#') →
      headingFind (List.replicate k '#' ++ ' ' ::
          (w ++ (List.replicate a ' ' ++ List.replicate b '#'))) =
        some ((List.replicate k '#' ++ ' ' ::
          (w ++ (List.replicate a ' ' ++ List.replicate b '#'))).length, w) ∧
      lexTokens (List.replicate k '#' ++ ' ' ::
          (w ++ (List.replicate a ' ' ++ List.replicate b '#'))) =
        .ok [⟨.itemHeading, 0, List.replicate k '#' ++ ' ' ::
          (w ++ (List.replicate a ' ' ++ List.replicate b '#'))⟩]) ∧
    (∀ (j a b : Nat) (w : List Char), 7 ≤ j → w ≠ [] → '\n' ∉ w →
      (∀ ℓ ∈ w, w.getLast? = some ℓ → ℓ ≠ ' ' ∧ ℓ ≠ '#') →
      headingFind (List.replicate j '#' ++ ' ' ::
          (w ++ (List.replicate a ' ' ++ List.replicate b '#'))) =
        some ((List.replicate j '#' ++ ' ' ::
          (w ++ (List.replicate a ' ' ++ List.replicate b '#'))).length,
          List.replicate (j - 6) '#' ++ ' ' :: w) ∧
      lexTokens (List.replicate j '#' ++ ' ' ::
          (w ++ (List.replicate a ' ' ++ List.replicate b '#'))) =
        .ok [⟨.itemHeading, 0, List.replicate j '#' ++ ' ' ::
          (w ++ (List.replicate a ' ' ++ List.replicate b '#'))⟩]) := by
  constructor
  · intro k a b w hk1 hk6 hw hnl hhead hlast
    have hfind := headingFind_shape_gen k a b w hk1 hk6 hw hnl hhead hlast
    exact ⟨hfind, lexTokens_heading_line
      (getElem?_zero_replicate_append (by omega) _) hfind⟩
  · intro j a b w hj hw hnl hlast
    have hfind := headingFind_shape_seven j a b w hj hw hnl hlast
    exact ⟨hfind, lexTokens_heading_line
      (getElem?_zero_replicate_append (by omega) _) hfind⟩

/-- C5 witness: `# foo bar ##` lexes as one heading token capturing
`foo bar` (the trailing space and `#` run are stripped even though the
heading text has an interior space), and `####### x` — 7 leading `#` —
still lexes as one heading token but its capture is `# x`: only 6 `#` form
the prefix. -/
theorem mark_c5_witness :
    (headingFind (List.replicate 1 '#' ++ ' ' ::
        (['f', 'o', 'o', ' ', 'b', 'a', 'r'] ++
          (List.replicate 1 ' ' ++ List.replicate 2 '#'))) =
      some ((List.replicate 1 '#' ++ ' ' ::
        (['f', 'o', 'o', ' ', 'b', 'a', 'r'] ++
          (List.replicate 1 ' ' ++ List.replicate 2 '#'))).length,
        ['f', 'o', 'o', ' ', 'b', 'a', 'r']) ∧
      lexTokens (List.replicate 1 '#' ++ ' ' ::
          (['f', 'o', 'o', ' ', 'b', 'a', 'r'] ++
            (List.replicate 1 ' ' ++ List.replicate 2 '#'))) =
        .ok [⟨.itemHeading, 0, List.replicate 1 '#' ++ ' ' ::
          (['f', 'o', 'o', ' ', 'b', 'a', 'r'] ++
            (List.replicate 1 ' ' ++ List.replicate 2 '#'))⟩]) ∧
    (headingFind (List.replicate 7 '#' ++ ' ' ::
        (['x'] ++ (List.replicate 0 ' ' ++ List.replicate 0 '#'))) =
      some ((List.replicate 7 '#' ++ ' ' ::
        (['x'] ++ (List.replicate 0 ' ' ++ List.replicate 0 '#'))).length,
        List.replicate (7 - 6) '#' ++ ' ' :: ['x']) ∧
      lexTokens (List.replicate 7 '#' ++ ' ' ::
          (['x'] ++ (List.replicate 0 ' ' ++ List.replicate 0 '#'))) =
        .ok [⟨.itemHeading, 0, List.replicate 7 '#' ++ ' ' ::
          (['x'] ++ (List.replicate 0 ' ' ++ List.replicate 0 '#'))⟩]) :=
  ⟨mark_c5.1 1 1 2 ['f', 'o', 'o', ' ', 'b', 'a', 'r'] (by decide) (by decide)
      (by decide) (by decide) (by decide) (by decide),
    mark_c5.2 7 0 0 ['x'] (by decide) (by decide) (by decide) (by decide)⟩

/-- C7: in a text run, at a span delimiter character (`_`, `*`, `~` or a
backtick) the scanner tries the four span rules in source order — strong,
then italic, then strike, then inline code — emits one token for the first
rule that matches and advances past the matched span; if none of the four
rules matches, the delimiter is consumed as a single ordinary text
character and scanning continues in the text state. -/
theorem mark_c7 (l : LS) (r : Char) (hr : l.input[l.pos]? = some r)
    (hd : r = '_' ∨ r = '*' ∨ r = '~' ∨ r = bt) :
    (∀ m, strongFind (l.input.drop l.pos) = some m →
      firstSpan (l.input.drop l.pos) = some (.itemStrong, m) ∧
      lexStep l .text =
        .cont (emitTok { l with pos := l.pos + m, width := 1 } .itemStrong)
          .text) ∧
    (∀ m, strongFind (l.input.drop l.pos) = none →
      italicFind (l.input.drop l.pos) = some m →
      firstSpan (l.input.drop l.pos) = some (.itemItalic, m) ∧
      lexStep l .text =
        .cont (emitTok { l with pos := l.pos + m, width := 1 } .itemItalic)
          .text) ∧
    (∀ m, strongFind (l.input.drop l.pos) = none →
      italicFind (l.input.drop l.pos) = none →
      strikeFind (l.input.drop l.pos) = some m →
      firstSpan (l.input.drop l.pos) = some (.itemStrike, m) ∧
      lexStep l .text =
        .cont (emitTok { l with pos := l.pos + m, width := 1 } .itemStrike)
          .text) ∧
    (∀ m, strongFind (l.input.drop l.pos) = none →
      italicFind (l.input.drop l.pos) = none →
      strikeFind (l.input.drop l.pos) = none →
      codeSpanFind (l.input.drop l.pos) = some m →
      firstSpan (l.input.drop l.pos) = some (.itemCode, m) ∧
      lexStep l .text =
        .cont (emitTok { l with pos := l.pos + m, width := 1 } .itemCode)
          .text) ∧
    (strongFind (l.input.drop l.pos) = none →
      italicFind (l.input.drop l.pos) = none →
      strikeFind (l.input.drop l.pos) = none →
      codeSpanFind (l.input.drop l.pos) = none →
      lexStep l .text =
        .cont (emitTok { l with pos := l.pos + 1, width := 1 } .itemText)
          .text) := by
  have hnb : (decide (r = '\n') || decide (r = ' ')) = false := by
    rcases hd with rfl | rfl | rfl | rfl <;> decide
  have hdl : isDelim r = true := by
    rcases hd with rfl | rfl | rfl | rfl <;> decide
  have hspan : ∀ (t : ItemType) (m : Nat),
      firstSpan (l.input.drop l.pos) = some (t, m) →
      lexStep l .text =
        .cont (emitTok { l with pos := l.pos + m, width := 1 } t) .text := by
    intro t m hfs
    simp only [lexStep, hr]
    rw [if_neg (by rw [hnb]; simp), if_pos hdl, hfs]
  have hnone : firstSpan (l.input.drop l.pos) = none →
      lexStep l .text =
        .cont (emitTok { l with pos := l.pos + 1, width := 1 } .itemText)
          .text := by
    intro hfs
    simp only [lexStep, hr]
    rw [if_neg (by rw [hnb]; simp), if_pos hdl, hfs]
  refine ⟨?_, ?_, ?_, ?_, ?_⟩
  · intro m hs
    have hfs : firstSpan (l.input.drop l.pos) = some (.itemStrong, m) := by
      unfold firstSpan
      rw [hs]
    exact ⟨hfs, hspan _ _ hfs⟩
  · intro m hs hi
    have hfs : firstSpan (l.input.drop l.pos) = some (.itemItalic, m) := by
      unfold firstSpan
      rw [hs, hi]
    exact ⟨hfs, hspan _ _ hfs⟩
  · intro m hs hi hk
    have hfs : firstSpan (l.input.drop l.pos) = some (.itemStrike, m) := by
      unfold firstSpan
      rw [hs, hi, hk]
    exact ⟨hfs, hspan _ _ hfs⟩
  · intro m hs hi hk hc
    have hfs : firstSpan (l.input.drop l.pos) = some (.itemCode, m) := by
      unfold firstSpan
      rw [hs, hi, hk, hc]
    exact ⟨hfs, hspan _ _ hfs⟩
  · intro hs hi hk hc
    exact hnone (by unfold firstSpan; rw [hs, hi, hk, hc])

/-- C7 witness: on `**a**` the strong rule matches (span 5) and one strong
token is emitted; on `~a` no span rule matches and the tilde is consumed as
a one-character text token. -/
theorem mark_c7_witness :
    (firstSpan ((⟨['*', '*', 'a', '*', '*'], 0, 0, 0, []⟩ : LS).input.drop
        (⟨['*', '*', 'a', '*', '*'], 0, 0, 0, []⟩ : LS).pos) =
        some (.itemStrong, 5) ∧
      lexStep (⟨['*', '*', 'a', '*', '*'], 0, 0, 0, []⟩ : LS) .text =
        .cont (emitTok { (⟨['*', '*', 'a', '*', '*'], 0, 0, 0, []⟩ : LS) with
          pos := (⟨['*', '*', 'a', '*', '*'], 0, 0, 0, []⟩ : LS).pos + 5,
          width := 1 } .itemStrong) .text) ∧
    lexStep (⟨['~', 'a'], 0, 0, 0, []⟩ : LS) .text =
      .cont (emitTok { (⟨['~', 'a'], 0, 0, 0, []⟩ : LS) with
        pos := (⟨['~', 'a'], 0, 0, 0, []⟩ : LS).pos + 1, width := 1 }
        .itemText) .text :=
  ⟨(mark_c7 ⟨['*', '*', 'a', '*', '*'], 0, 0, 0, []⟩ '*' (by decide)
      (Or.inr (Or.inl rfl))).1 5 (by decide),
    (mark_c7 ⟨['~', 'a'], 0, 0, 0, []⟩ '~' (by decide)
      (Or.inr (Or.inr (Or.inl rfl)))).2.2.2.2 (by decide) (by decide)
      (by decide) (by decide)⟩

theorem take_two_of_getElem? {s : List Char} {p : Nat} {a b : Char}
    (ha : s[p]? = some a) (hb : s[p + 1]? = some b) :
    (s.drop p).take 2 = [a, b] := by
  obtain ⟨hpa, ha'⟩ := List.getElem?_eq_some.mp ha
  obtain ⟨hpb, hb'⟩ := List.getElem?_eq_some.mp hb
  rw [List.drop_eq_getElem_cons hpa, ha', List.take_succ_cons,
    List.drop_eq_getElem_cons hpb, hb', List.take_succ_cons, List.take_zero]

/-- C8: a text run hands control back to top-level scanning exactly at
end-of-input, at two consecutive newlines, or at two consecutive spaces;
in the two-character cases one newline boundary token is emitted whose
value is exactly those two characters, and both characters are consumed. -/
theorem mark_c8 (l : LS) (hsp : l.start = l.pos) :
    ((∃ l2, lexStep l .text = .cont l2 .any) ↔
      (l.input[l.pos]? = none ∨
        (l.input[l.pos]? = some '\n' ∧ l.input[l.pos + 1]? = some '\n') ∨
        (l.input[l.pos]? = some ' ' ∧ l.input[l.pos + 1]? = some ' '))) ∧
    (∀ c, (c = '\n' ∨ c = ' ') → l.input[l.pos]? = some c →
      l.input[l.pos + 1]? = some c →
      lexStep l .text =
        .cont (emitTok { l with pos := l.pos + 1 + 1, width := 1 }
          .itemNewLine) .any ∧
      emitTok { l with pos := l.pos + 1 + 1, width := 1 } .itemNewLine =
        { l with pos := l.pos + 1 + 1, start := l.pos + 1 + 1, width := 1,
                 items := l.items ++ [⟨.itemNewLine, l.pos, [c, c]⟩] }) := by
  have hpart2 : ∀ c, (c = '\n' ∨ c = ' ') → l.input[l.pos]? = some c →
      l.input[l.pos + 1]? = some c →
      lexStep l .text =
        .cont (emitTok { l with pos := l.pos + 1 + 1, width := 1 }
          .itemNewLine) .any ∧
      emitTok { l with pos := l.pos + 1 + 1, width := 1 } .itemNewLine =
        { l with pos := l.pos + 1 + 1, start := l.pos + 1 + 1, width := 1,
                 items := l.items ++ [⟨.itemNewLine, l.pos, [c, c]⟩] } := by
    intro c hc hp0 hp1
    have h1 : (decide (c = '\n') || decide (c = ' ')) = true := by
      rcases hc with rfl | rfl <;> decide
    have h2 : (decide (c = '\n') &&
          decide ((some c : Option Char) = some '\n') ||
        decide (c = ' ') && decide ((some c : Option Char) = some ' ')) =
        true := by
      rcases hc with rfl | rfl <;> decide
    constructor
    · simp only [lexStep, hp0, hp1]
      rw [if_pos h1, if_pos h2]
      simp
    · have hval : (l.input.drop l.pos).take (l.pos + 1 + 1 - l.pos) =
          [c, c] := by
        rw [show l.pos + 1 + 1 - l.pos = 2 from by omega]
        exact take_two_of_getElem? hp0 hp1
      simp only [emitTok, hsp]
      rw [hval]
  refine ⟨⟨?_, ?_⟩, hpart2⟩
  · rintro ⟨l2, hstep⟩
    cases hr : l.input[l.pos]? with
    | none => exact Or.inl rfl
    | some r =>
      by_cases h1 : (decide (r = '\n') || decide (r = ' ')) = true
      · cases hpk : l.input[l.pos + 1]? with
        | none =>
          have hst : lexStep l .text =
              .cont (emitTok { l with pos := l.pos + 1, width := 0 }
                .itemText) .text := by
            simp only [lexStep, hr, hpk]
            rw [if_pos h1, if_neg (by simp)]
            simp
          rw [hst] at hstep
          simp at hstep
        | some c2 =>
          by_cases h2 : (decide (r = '\n') &&
                decide ((some c2 : Option Char) = some '\n') ||
              decide (r = ' ') &&
                decide ((some c2 : Option Char) = some ' ')) = true
          · simp only [Bool.or_eq_true, Bool.and_eq_true, decide_eq_true_eq,
              Option.some.injEq] at h2
            rcases h2 with ⟨rfl, rfl⟩ | ⟨rfl, rfl⟩
            · exact Or.inr (Or.inl ⟨rfl, rfl⟩)
            · exact Or.inr (Or.inr ⟨rfl, rfl⟩)
          · have hst : lexStep l .text =
                .cont (emitTok { l with pos := l.pos + 1, width := 1 }
                  .itemText) .text := by
              simp only [lexStep, hr, hpk]
              rw [if_pos h1, if_neg h2]
              simp
            rw [hst] at hstep
            simp at hstep
      · by_cases hd : isDelim r = true
        · cases hspan : firstSpan (l.input.drop l.pos) with
          | some p =>
            obtain ⟨t, m⟩ := p
            have hst : lexStep l .text =
                .cont (emitTok { l with pos := l.pos + m, width := 1 } t)
                  .text := by
              simp [lexStep, hr, h1, hd, hspan]
            rw [hst] at hstep
            simp at hstep
          | none =>
            have hst : lexStep l .text =
                .cont (emitTok { l with pos := l.pos + 1, width := 1 }
                  .itemText) .text := by
              simp [lexStep, hr, h1, hd, hspan]
            rw [hst] at hstep
            simp at hstep
        · have hst : lexStep l .text =
              .cont (emitTok { l with pos := l.pos + 1, width := 1 }
                .itemText) .text := by
            simp [lexStep, hr, h1, hd]
          rw [hst] at hstep
          simp at hstep
  · rintro (hnone | ⟨hp0, hp1⟩ | ⟨hp0, hp1⟩)
    · exact ⟨{ l with width := 0 }, by simp [lexStep, hnone]⟩
    · exact ⟨_, (hpart2 '\n' (Or.inl rfl) hp0 hp1).1⟩
    · exact ⟨_, (hpart2 ' ' (Or.inr rfl) hp0 hp1).1⟩

/-- C8 witness: on the two-character input of two newlines, with the text
run starting at the cursor, the scanner emits one newline boundary token
whose value is both newlines and returns to top-level scanning. -/
theorem mark_c8_witness :
    lexStep (⟨['\n', '\n'], 0, 0, 0, []⟩ : LS) .text =
      .cont (emitTok { (⟨['\n', '\n'], 0, 0, 0, []⟩ : LS) with
        pos := 0 + 1 + 1, width := 1 } .itemNewLine) .any ∧
    emitTok { (⟨['\n', '\n'], 0, 0, 0, []⟩ : LS) with
        pos := 0 + 1 + 1, width := 1 } .itemNewLine =
      { (⟨['\n', '\n'], 0, 0, 0, []⟩ : LS) with pos := 0 + 1 + 1,
                                                 start := 0 + 1 + 1, width := 1,
                                                 items := [] ++ [⟨.itemNewLine, 0, ['\n', '\n']⟩] } :=
  (mark_c8 ⟨['\n', '\n'], 0, 0, 0, []⟩ rfl).2 '\n' (Or.inl rfl) (by decide)
    (by decide)

theorem textTokens_length : ∀ (p : Nat) (s : List Char),
    (textTokens p s).length = s.length := by
  intro p s
  induction s generalizing p with
  | nil => rfl
  | cons c rest ih => simp [textTokens, ih]

theorem runF_text_plain :
    ∀ (suffix : List Char) (l : LS), l.input.drop l.pos = suffix →
      l.start = l.pos → (∀ c ∈ suffix, plainChar c = true) →
      runF (suffix.length + 2) l .text =
        some (.ok (l.items ++ textTokens l.pos suffix)) := by
  intro suffix
  induction suffix with
  | nil =>
    intro l hdrop hsp hplain
    have hnone : l.input[l.pos]? = none := by
      have hlen := congrArg List.length hdrop
      simp only [List.length_drop, List.length_nil] at hlen
      exact List.getElem?_eq_none (by omega)
    have hstep1 : lexStep l .text = .cont { l with width := 0 } .any := by
      simp [lexStep, hnone]
    have hstep2 : lexStep ({ l with width := 0 } : LS) .any =
        .halt { l with width := 0 } := by
      simp only [lexStep]
      rw [show ({ l with width := 0 } : LS).input[({ l with width := 0 } :
        LS).pos]? = none from hnone]
    rw [show ([] : List Char).length + 2 = 1 + 1 from rfl,
      runF_succ_cont hstep1, runF_succ_halt hstep2]
    simp [textTokens]
  | cons c rest ih =>
    intro l hdrop hsp hplain
    have hp := hplain c (by simp)
    simp [plainChar] at hp
    obtain ⟨⟨⟨⟨⟨⟨⟨h1, h2⟩, h3⟩, h4⟩, h5⟩, h6⟩, h7⟩, h8⟩ := hp
    have hr : l.input[l.pos]? = some c := by
      have h0 := List.getElem?_drop l.input l.pos 0
      rw [hdrop] at h0
      simpa using h0.symm
    have hdrop1 : l.input.drop (l.pos + 1) = rest := by
      have ht := congrArg List.tail hdrop
      rw [List.tail_drop] at ht
      simpa using ht
    have hstep : lexStep l .text =
        .cont (emitTok { l with pos := l.pos + 1, width := 1 } .itemText)
          .text := by
      simp only [lexStep, hr]
      rw [if_neg (by simp [h1, h2]), if_neg (by simp [isDelim, h3, h4, h5, h6])]
    have hdrop2 : (emitTok { l with pos := l.pos + 1, width := 1 }
        .itemText).input.drop (emitTok { l with pos := l.pos + 1, width := 1 }
        .itemText).pos = rest := by
      simp only [emitTok]
      exact hdrop1
    have hsp2 : (emitTok { l with pos := l.pos + 1, width := 1 }
        .itemText).start = (emitTok { l with pos := l.pos + 1, width := 1 }
        .itemText).pos := by
      simp [emitTok]
    have hplain2 : ∀ c' ∈ rest, plainChar c' = true :=
      fun c' hc' => hplain c' (by simp [hc'])
    have hval : (l.input.drop l.pos).take 1 = [c] := by
      rw [hdrop]
      rfl
    rw [show (c :: rest).length + 2 = (rest.length + 2) + 1 from by simp]
    rw [runF_succ_cont hstep,
      ih (emitTok { l with pos := l.pos + 1, width := 1 } .itemText)
        hdrop2 hsp2 hplain2]
    simp only [emitTok, hsp]
    simp [hval, textTokens, List.append_assoc]

/-- C10: inside a text run, a plain word (characters that neither end the
run nor can begin a span) lexes as one single-character text token per
rune, starting at position 0: consecutive plain characters are never
coalesced, so a plain word of n runes yields exactly n text tokens. -/
theorem mark_c10 (w : List Char) (hw : w ≠ [])
    (hplain : ∀ c ∈ w, plainChar c = true) :
    lexTokens w = .ok (textTokens 0 w) ∧
    (textTokens 0 w).length = w.length := by
  obtain ⟨c, rest, rfl⟩ := List.exists_cons_of_ne_nil hw
  have hp := hplain c (by simp)
  simp [plainChar] at hp
  obtain ⟨⟨⟨⟨⟨⟨⟨h1, h2⟩, h3⟩, h4⟩, h5⟩, h6⟩, h7⟩, h8⟩ := hp
  have hr0 : (c :: rest)[0]? = some c := by simp
  have hstep0 : lexStep (initLS (c :: rest)) .any =
      .cont (⟨c :: rest, 0, 0, 1, []⟩ : LS) .text := by
    simp only [initLS, lexStep, hr0]
    rw [if_neg (by simp [h4, h8]), if_neg h7, if_neg (by simp [h1]),
      if_neg (by simp [h1, h5, h6])]
  have hrun1 := runF_text_plain (c :: rest) (⟨c :: rest, 0, 0, 1, []⟩ : LS)
    (by simp) rfl hplain
  have hrun : runF ((c :: rest).length + 3) (initLS (c :: rest)) .any =
      some (.ok (textTokens 0 (c :: rest))) := by
    rw [show (c :: rest).length + 3 = ((c :: rest).length + 2) + 1 from by
      omega, runF_succ_cont hstep0]
    exact hrun1
  exact ⟨lexTokens_eq_of_runF hrun (by unfold lexFuel; omega),
    textTokens_length 0 _⟩

/-- C10 witness: the three-letter word `abc` lexes as three one-character
text tokens. -/
theorem mark_c10_witness :
    lexTokens ['a', 'b', 'c'] = .ok (textTokens 0 ['a', 'b', 'c']) ∧
    (textTokens 0 ['a', 'b', 'c']).length = (['a', 'b', 'c'] : List Char).length :=
  mark_c10 ['a', 'b', 'c'] (by decide) (by decide)

end Mark
